import Mathlib

/-!
Verification development for the Filipino Dama rules engine and its
game-tree AI (`src/utils/gameLogic.ts`, `src/utils/ai.ts`).

The TypeScript source is shallowly embedded: arrays become lists, the
`(Piece | null)[][]` board becomes `List (List (Option Piece))`, machine
numbers become `Int`/`Nat` (no overflow is possible on an 8×8 board), and
the JS `number` scores of the AI become exact rationals `ℚ` (the source
multiplies an integer bonus table by 0.1; the numeric values play no role
in the theorems below).  The two unbounded loops of the source — the king
scan along a diagonal and the recursive capture-chain enumeration — are
rendered with explicit fuel; comments at the definitions justify that the
chosen fuel can never be exhausted from a reachable state, so the fueled
functions agree with the source's loops.
-/

namespace Dama

/-- `PlayerColor` from `src/types.ts`. -/
inductive PlayerColor where
  | white
  | black
deriving DecidableEq, Repr

/-- `Piece` from `src/types.ts`. -/
structure Piece where
  color : PlayerColor
  isKing : Bool
deriving DecidableEq, Repr

/-- `Position` from `src/types.ts`; coordinates are JS numbers, embedded as `Int`
(the scans of the source step coordinates below 0). -/
structure Position where
  row : Int
  col : Int
deriving DecidableEq, Repr

/-- `BoardState` from `src/types.ts`: an 8×8 grid of `Piece | null`. -/
abbrev BoardState := List (List (Option Piece))

/-- `Move` from `src/types.ts`.  `from` is a Lean keyword, hence `from'`.
The optional `isPromotion` flag is never written by the engine; it defaults
to `none` exactly as an absent optional field does in the source. -/
structure Move where
  from' : Position
  to' : Position
  captures : List Position
  isPromotion : Option Bool := none
deriving DecidableEq, Repr

instance : Inhabited Move :=
  ⟨{ from' := ⟨0, 0⟩, to' := ⟨0, 0⟩, captures := [] }⟩

/-- `MoveResult` from `src/types.ts`. -/
structure MoveResult where
  board : BoardState
  turnEnded : Bool
  mustCaptureFrom : Option Position
  promoted : Bool
  captured : Bool
deriving DecidableEq, Repr

/-- `BOARD_SIZE` from `src/constants.ts`. -/
def BOARD_SIZE : Int := 8

/-- `DIRECTIONS` from `src/utils/gameLogic.ts`. -/
def DIRECTIONS : List (Int × Int) :=
  [(-1, -1), (-1, 1), (1, -1), (1, 1)]

/-- `isValidPos` from `src/utils/gameLogic.ts`. -/
def isValidPos (r c : Int) : Bool :=
  decide (0 ≤ r ∧ r < BOARD_SIZE ∧ 0 ≤ c ∧ c < BOARD_SIZE)

/-- Reading `board[r][c]`.  The source only ever indexes with coordinates it
has checked via `isValidPos` (or with coordinates of an enumerated piece), so
out-of-range reads answer `none` here. -/
def boardGet (b : BoardState) (r c : Int) : Option Piece :=
  if isValidPos r c then ((b.getD r.toNat []).getD c.toNat none) else none

/-- Writing `board[r][c] = v`.  All writes of the source are at positions of
generated moves, which are on the board; out-of-range writes are no-ops. -/
def boardSet (b : BoardState) (r c : Int) (v : Option Piece) : BoardState :=
  if isValidPos r c then b.set r.toNat ((b.getD r.toNat []).set c.toNat v) else b

/-- `createInitialBoard` from `src/utils/gameLogic.ts`: rows 0–2 black, rows
5–7 white, pieces on squares with `(r + c) % 2 !== 0`. -/
def createInitialBoard : BoardState :=
  (List.range 8).map (fun r =>
    (List.range 8).map (fun c =>
      if (r + c) % 2 ≠ 0 then
        if r < 3 then some { color := PlayerColor.black, isKing := false }
        else if 5 ≤ r ∧ r < 8 then some { color := PlayerColor.white, isKing := false }
        else none
      else none))

/-- Forward directions for men (`forwardDirs` in `getMovesForPiece`). -/
def forwardDirs (color : PlayerColor) : List (Int × Int) :=
  if color = PlayerColor.white then [(-1, -1), (-1, 1)] else [(1, -1), (1, 1)]

/-- The sliding loop of the flying-king non-capture generator
(`getMovesForPiece`, king branch): walk `(r, c)`, `(r+dr, c+dc)`, … while the
square is on the board and empty, emitting one move per empty square, and stop
at the first occupied square or the edge.  A walk from a valid start leaves
the board after at most 8 steps (each step changes the row by ±1 and rows live
in `[0, 8)`), so fuel 8 is never exhausted. -/
def kingSlide (b : BoardState) (pos : Position) (dr dc : Int) :
    Nat → Int → Int → List Move
  | 0, _, _ => []
  | fuel + 1, r, c =>
    if isValidPos r c then
      match boardGet b r c with
      | none =>
          { from' := pos, to' := ⟨r, c⟩, captures := [] } ::
            kingSlide b pos dr dc fuel (r + dr) (c + dc)
      | some _ => []
    else []

/-- The scanning loop of the flying-king capture generator
(`getMovesForPiece`, king branch).  State `enemyPos` is the `foundEnemy` /
`enemyPos` pair of the source (`none` = not yet found).  Fuel 8 suffices for
the same reason as in `kingSlide`. -/
def kingCaptureScan (b : BoardState) (pos : Position) (color : PlayerColor)
    (dr dc : Int) : Nat → Int → Int → Option Position → List Move
  | 0, _, _, _ => []
  | fuel + 1, r, c, enemyPos =>
    if isValidPos r c then
      match boardGet b r c with
      | none =>
          (match enemyPos with
           | some ep => [{ from' := pos, to' := ⟨r, c⟩, captures := [ep] }]
           | none => []) ++
          kingCaptureScan b pos color dr dc fuel (r + dr) (c + dc) enemyPos
      | some cell =>
          if cell.color = color then []
          else
            match enemyPos with
            | some _ => []
            | none => kingCaptureScan b pos color dr dc fuel (r + dr) (c + dc) (some ⟨r, c⟩)
    else []

/-- The raw capture moves of a king in one scan direction (the body of the
`for (const dir of DIRECTIONS)` loop of the king-capture branch of
`getMovesForPiece`). -/
def kingCaptureMovesInDir (b : BoardState) (pos : Position) (color : PlayerColor)
    (d : Int × Int) : List Move :=
  kingCaptureScan b pos color d.1 d.2 8 (pos.row + d.1) (pos.col + d.2) none

/-- `getMovesForPiece` from `src/utils/gameLogic.ts`: raw moves for one piece,
non-capture moves first, then capture moves, each loop rendered as a
concatenation over its direction list. -/
def getMovesForPiece (board : BoardState) (pos : Position) (piece : Piece) :
    List Move :=
  let fdirs := forwardDirs piece.color
  let nonCapture :=
    if piece.isKing then
      DIRECTIONS.flatMap (fun d => kingSlide board pos d.1 d.2 8 (pos.row + d.1) (pos.col + d.2))
    else
      fdirs.filterMap (fun d =>
        let r := pos.row + d.1
        let c := pos.col + d.2
        if isValidPos r c ∧ boardGet board r c = none then
          some { from' := pos, to' := ⟨r, c⟩, captures := [] }
        else none)
  let capture :=
    if piece.isKing then
      DIRECTIONS.flatMap (fun d => kingCaptureMovesInDir board pos piece.color d)
    else
      fdirs.filterMap (fun d =>
        let midR := pos.row + d.1
        let midC := pos.col + d.2
        let destR := pos.row + 2 * d.1
        let destC := pos.col + 2 * d.2
        if isValidPos destR destC then
          match boardGet board midR midC, boardGet board destR destC with
          | some midPiece, none =>
              if midPiece.color ≠ piece.color then
                some { from' := pos, to' := ⟨destR, destC⟩, captures := [⟨midR, midC⟩] }
              else none
          | _, _ => none
        else none)
  nonCapture ++ capture

/-- One returned element of `getMaxCaptureChain` (`{ moves, count }` in the
source). -/
structure ChainResult where
  moves : List Move
  count : Nat
deriving DecidableEq, Repr

/-- The `reachedEnd` test inside `getMaxCaptureChain`. -/
def reachedEndB (color : PlayerColor) (m : Move) : Bool :=
  (color = PlayerColor.white && m.to'.row = 0) ||
  (!(color = PlayerColor.white) && m.to'.row = BOARD_SIZE - 1)

/-- The scratch-board simulation inside `getMaxCaptureChain`: remove the
captured piece (`move.captures[0]`; capture moves always carry exactly one
entry), then relocate the moving piece.  The source's deep copy is implicit
in the purely functional `boardSet`. -/
def simulateCapture (b : BoardState) (move : Move) : BoardState :=
  let b1 := match move.captures with
    | cap :: _ => boardSet b cap.row cap.col none
    | [] => b
  let b2 := boardSet b1 move.to'.row move.to'.col
    (boardGet b1 move.from'.row move.from'.col)
  boardSet b2 move.from'.row move.from'.col none

/-- The recursion of `getMaxCaptureChain`, with explicit fuel.  Each
recursive call performs one more capture, every capture removes one piece
from a 64-cell board, and a capture additionally needs an empty landing
square, so strictly fewer than 64 nested calls are possible: fuel 64 is
never exhausted from a top-level call. -/
def getMaxCaptureChainGo (b : BoardState) (pos : Position) (cur : List Move) :
    Nat → List ChainResult
  | 0 => []
  | fuel + 1 =>
    match boardGet b pos.row pos.col with
    | none => []
    | some piece =>
      let captureMoves :=
        (getMovesForPiece b pos piece).filter (fun m => decide (0 < m.captures.length))
      if captureMoves = [] then
        if 0 < cur.length then [⟨cur, cur.length⟩] else []
      else
        captureMoves.flatMap (fun move =>
          let tempBoard := simulateCapture b move
          if !piece.isKing && reachedEndB piece.color move then
            [⟨cur ++ [move], cur.length + 1⟩]
          else
            let subChains := getMaxCaptureChainGo tempBoard move.to' (cur ++ [move]) fuel
            if subChains = [] then [⟨cur ++ [move], cur.length + 1⟩]
            else subChains)

/-- `getMaxCaptureChain` from `src/utils/gameLogic.ts` (the source's default
argument `currentChain = []`). -/
def getMaxCaptureChain (b : BoardState) (pos : Position) : List ChainResult :=
  getMaxCaptureChainGo b pos [] 64

/-- The piece-enumeration loop at the top of `getValidMovesForPlayer`. -/
def playerPieces (board : BoardState) (player : PlayerColor) :
    List (Position × Piece) :=
  (List.range 8).flatMap (fun r =>
    (List.range 8).filterMap (fun c =>
      match boardGet board r c with
      | some piece =>
          if piece.color = player then some (⟨(r : Int), (c : Int)⟩, piece) else none
      | none => none))

/-- The `targetPieces` filter of `getValidMovesForPlayer` (lock to the
`mustCaptureFrom` square when one is given). -/
def targetPieces (board : BoardState) (player : PlayerColor)
    (mustCaptureFrom : Option Position) : List (Position × Piece) :=
  match mustCaptureFrom with
  | some q =>
      (playerPieces board player).filter
        (fun pc => decide (pc.1.row = q.row ∧ pc.1.col = q.col))
  | none => playerPieces board player

/-- One entry of the `captureSequences` accumulator of
`getValidMovesForPlayer`. -/
structure CaptureSeq where
  start : Position
  moves : List Move
  count : Nat
deriving DecidableEq, Repr

/-- The `captureSequences` accumulator of `getValidMovesForPlayer`: all
capture chains of all eligible pieces. -/
def captureSequences (board : BoardState) (player : PlayerColor)
    (mustCaptureFrom : Option Position) : List CaptureSeq :=
  (targetPieces board player mustCaptureFrom).flatMap (fun pc =>
    (getMaxCaptureChain board pc.1).map (fun ch => ⟨pc.1, ch.moves, ch.count⟩))

/-- The `maxCaptureCount` accumulator of `getValidMovesForPlayer`. -/
def maxCaptureCount (board : BoardState) (player : PlayerColor)
    (mustCaptureFrom : Option Position) : Nat :=
  (captureSequences board player mustCaptureFrom).foldl
    (fun acc s => Nat.max acc s.count) 0

/-- The `(from,to)` key of the `distinctMoves` map of
`getValidMovesForPlayer`.  The source builds the string
`"fr-fc-tr-tc"`; all coordinates of generated moves are single digits, so
the tuple is the same key. -/
def moveKey (m : Move) : Int × Int × Int × Int :=
  (m.from'.row, m.from'.col, m.to'.row, m.to'.col)

/-- One `distinctMoves.set(key, move)` step of a JS `Map`: an existing key
keeps its insertion slot but receives the new value, a new key is appended. -/
def mapSet (acc : List Move) (m : Move) : List Move :=
  if acc.any (fun m2 => decide (moveKey m2 = moveKey m)) then
    acc.map (fun m2 => if moveKey m2 = moveKey m then m else m2)
  else acc ++ [m]

/-- `Array.from(distinctMoves.values())` after all `set` calls. -/
def distinctMoves (ms : List Move) : List Move :=
  ms.foldl mapSet []

/-- `getValidMovesForPlayer` from `src/utils/gameLogic.ts`. -/
def getValidMovesForPlayer (board : BoardState) (player : PlayerColor)
    (mustCaptureFrom : Option Position) : List Move :=
  let seqs := captureSequences board player mustCaptureFrom
  let maxCount := maxCaptureCount board player mustCaptureFrom
  if 0 < maxCount then
    distinctMoves ((seqs.filter (fun s => decide (s.count = maxCount))).map
      (fun s => s.moves.headI))
  else
    match mustCaptureFrom with
    | some _ => []
    | none =>
        (playerPieces board player).flatMap (fun pc => getMovesForPiece board pc.1 pc.2)

/-- The `movingPiece` local of `applyMove`.  The source takes the moving
piece with a non-null assertion (`newBoard[from]!`); `applyMove` is only
ever called with a legal move, whose origin square is occupied, so the
`getD` default below is never read. -/
def movingPieceOf (board : BoardState) (move : Move) : Piece :=
  (boardGet board move.from'.row move.from'.col).getD
    { color := PlayerColor.white, isKing := false }

/-- The `captured` local of `applyMove`. -/
def capturedFlag (move : Move) : Bool :=
  decide (0 < move.captures.length)

/-- The `promoted` local of `applyMove`. -/
def promotedFlag (board : BoardState) (move : Move) : Bool :=
  !(movingPieceOf board move).isKing &&
    (((movingPieceOf board move).color = PlayerColor.white && move.to'.row = 0) ||
     ((movingPieceOf board move).color = PlayerColor.black && move.to'.row = BOARD_SIZE - 1))

/-- The `newBoard` local of `applyMove`: relocate the moving piece, clear
every captured square, then promote.  The promotion of the source mutates
the moving piece object in place; here the king flag is written through the
destination cell, which is where that object sits (unless a capture entry
cleared it, in which case the mutation is invisible on the board — matching
the aliasing of the source). -/
def applyMoveBoard (board : BoardState) (move : Move) : BoardState :=
  let b1 := boardSet board move.to'.row move.to'.col (some (movingPieceOf board move))
  let b2 := boardSet b1 move.from'.row move.from'.col none
  let b3 := move.captures.foldl (fun bb pos => boardSet bb pos.row pos.col none) b2
  if promotedFlag board move then
    boardSet b3 move.to'.row move.to'.col
      ((boardGet b3 move.to'.row move.to'.col).map (fun p => { p with isKing := true }))
  else b3

/-- `applyMove` from `src/utils/gameLogic.ts`, assembled from the named
locals above. -/
def applyMove (board : BoardState) (move : Move) : MoveResult :=
  if capturedFlag move && !promotedFlag board move then
    if 0 < (getValidMovesForPlayer (applyMoveBoard board move)
        (movingPieceOf board move).color (some move.to')).length then
      { board := applyMoveBoard board move, turnEnded := false,
        mustCaptureFrom := some move.to',
        promoted := promotedFlag board move, captured := capturedFlag move }
    else
      { board := applyMoveBoard board move, turnEnded := true, mustCaptureFrom := none,
        promoted := promotedFlag board move, captured := capturedFlag move }
  else
    { board := applyMoveBoard board move, turnEnded := true, mustCaptureFrom := none,
      promoted := promotedFlag board move, captured := capturedFlag move }

/-- The return type of `checkWinner` (`PlayerColor | 'draw' | null`). -/
inductive WinnerResult where
  | winner (c : PlayerColor)
  | draw
  | noWinner
deriving DecidableEq, Repr

/-- The white-piece counting loop of `checkWinner`. -/
def colorCount (board : BoardState) (color : PlayerColor) : Nat :=
  ((List.range 8).flatMap (fun r =>
    (List.range 8).map (fun c => boardGet board r c))).countP
    (fun cell => match cell with
      | some p => p.color = color
      | none => false)

/-- `checkWinner` from `src/utils/gameLogic.ts`. -/
def checkWinner (board : BoardState) : WinnerResult :=
  if colorCount board PlayerColor.white = 0 then WinnerResult.winner PlayerColor.black
  else if colorCount board PlayerColor.black = 0 then WinnerResult.winner PlayerColor.white
  else WinnerResult.noWinner

/-! ### The search AI (`src/utils/ai.ts`)

JS numbers appear here both as scores and as the `±Infinity` sentinels of
alpha–beta search.  Scores are embedded as exact rationals (the positional
bonus is `table × 0.1`; written `table × 1/10` below), and the sentinel
values get their own type `XVal` with the IEEE ordering of `±Infinity`. -/

/-- A JS `number` as used by the AI: a finite score or `±Infinity`. -/
inductive XVal where
  | neginf
  | fin (q : ℚ)
  | posinf
deriving DecidableEq, Repr

/-- `a <= b` on `XVal` (JS comparison; no NaN arises). -/
def XVal.leb : XVal → XVal → Bool
  | .neginf, _ => true
  | _, .posinf => true
  | .posinf, _ => false
  | .fin _, .neginf => false
  | .fin a, .fin b => decide (a ≤ b)

/-- `a < b` on `XVal`. -/
def XVal.ltb : XVal → XVal → Bool
  | _, .neginf => false
  | .posinf, _ => false
  | .neginf, _ => true
  | .fin _, .posinf => true
  | .fin a, .fin b => decide (a < b)

/-- `Math.max`. -/
def XVal.maxv (a b : XVal) : XVal := if XVal.leb a b then b else a

/-- `Math.min`. -/
def XVal.minv (a b : XVal) : XVal := if XVal.leb a b then a else b

/-- `KING_VALUE` from `src/utils/ai.ts`. -/
def KING_VALUE : ℚ := 50

/-- `MAN_VALUE` from `src/utils/ai.ts`. -/
def MAN_VALUE : ℚ := 10

/-- `DEPTH` from `src/utils/ai.ts`. -/
def DEPTH : Nat := 3

/-- `POSITIONAL_BONUS` from `src/utils/ai.ts`. -/
def POSITIONAL_BONUS : List (List ℚ) :=
  [[0, 0, 0, 0, 0, 0, 0, 0],
   [4, 2, 4, 2, 4, 2, 4, 2],
   [2, 3, 2, 3, 2, 3, 2, 3],
   [2, 4, 2, 4, 2, 4, 2, 4],
   [2, 4, 2, 4, 2, 4, 2, 4],
   [2, 3, 2, 3, 2, 3, 2, 3],
   [4, 2, 4, 2, 4, 2, 4, 2],
   [4, 4, 4, 4, 4, 4, 4, 4]]

/-- `winner` used as a JS truthiness test (`if (winner)`): anything except
`null` counts. -/
def winnerTruthy : WinnerResult → Bool
  | .noWinner => false
  | _ => true

/-- `evaluateBoard` from `src/utils/ai.ts`. -/
def evaluateBoard (board : BoardState) (playerColor : PlayerColor) : ℚ :=
  let winner := checkWinner board
  if winner = WinnerResult.winner playerColor then 10000
  else if winner ≠ WinnerResult.noWinner ∧ winner ≠ WinnerResult.draw then -10000
  else
    (List.range 8).foldl (fun score (r : Nat) =>
      (List.range 8).foldl (fun score (c : Nat) =>
        match boardGet board r c with
        | none => score
        | some piece =>
          let base : ℚ := if piece.isKing then KING_VALUE else MAN_VALUE
          let value : ℚ :=
            if !piece.isKing then
              let rowIdx := if piece.color = PlayerColor.black then r else 7 - r
              base + (POSITIONAL_BONUS.getD rowIdx []).getD c 0 * (1 / 10)
            else base
          if piece.color = playerColor then score + value else score - value)
        score) 0

/-- `currentPlayer === 'white' ? 'black' : 'white'`. -/
def otherColor (c : PlayerColor) : PlayerColor :=
  if c = PlayerColor.white then PlayerColor.black else PlayerColor.white

/-- `minimax` from `src/utils/ai.ts` (alpha–beta).  The `for … break` loops
are folds whose third state component is the `break` flag.  The source
decrements `depth` on every recursive call and stops at 0, so the recursion
is structural in `depth`. -/
def minimax (board : BoardState) : Nat → XVal → XVal → Bool → Option Position →
    PlayerColor → PlayerColor → XVal
  | 0, _, _, _, _, _, rootPlayer => .fin (evaluateBoard board rootPlayer)
  | depth + 1, alpha, beta, isMaximizing, mustCaptureFrom, currentPlayer, rootPlayer =>
    if winnerTruthy (checkWinner board) then .fin (evaluateBoard board rootPlayer)
    else
      let moves := getValidMovesForPlayer board currentPlayer mustCaptureFrom
      if moves = [] then .fin (if isMaximizing then -10000 else 10000)
      else if isMaximizing then
        (moves.foldl (fun st move =>
          if st.2.2 then st
          else
            let res := applyMove board move
            let nextPlayer := if res.turnEnded then otherColor currentPlayer else currentPlayer
            let nextIsMax := if res.turnEnded then !isMaximizing else isMaximizing
            let evalScore := minimax res.board depth st.2.1 beta nextIsMax
              res.mustCaptureFrom nextPlayer rootPlayer
            let maxEval := XVal.maxv st.1 evalScore
            let alpha2 := XVal.maxv st.2.1 evalScore
            (maxEval, alpha2, XVal.leb beta alpha2))
          (XVal.neginf, alpha, false)).1
      else
        (moves.foldl (fun st move =>
          if st.2.2 then st
          else
            let res := applyMove board move
            let nextPlayer := if res.turnEnded then otherColor currentPlayer else currentPlayer
            let nextIsMax := if res.turnEnded then !isMaximizing else isMaximizing
            let evalScore := minimax res.board depth alpha st.2.1 nextIsMax
              res.mustCaptureFrom nextPlayer rootPlayer
            let minEval := XVal.minv st.1 evalScore
            let beta2 := XVal.minv st.2.1 evalScore
            (minEval, beta2, XVal.leb beta2 alpha))
          (XVal.posinf, beta, false)).1

/-- `getBestMove` from `src/utils/ai.ts`.  The only nondeterminism of the
module — `[...moves].sort(() => Math.random() - 0.5)` — is made explicit as
the `shuffle` argument; the ECMAScript contract guarantees `sort` returns a
permutation of its input, which the theorems take as a hypothesis. -/
def getBestMove (shuffle : List Move → List Move) (board : BoardState)
    (player : PlayerColor) (mustCaptureFrom : Option Position) : Option Move :=
  let moves := getValidMovesForPlayer board player mustCaptureFrom
  match moves with
  | [] => none
  | [m] => some m
  | _ :: _ :: _ =>
    let shuffledMoves := shuffle moves
    (shuffledMoves.foldl (fun st move =>
      let res := applyMove board move
      let nextPlayer := if res.turnEnded then otherColor player else player
      let isMaximizing := !res.turnEnded
      let moveValue := minimax res.board (DEPTH - 1) XVal.neginf XVal.posinf
        isMaximizing res.mustCaptureFrom nextPlayer player
      if XVal.ltb st.2 moveValue then (some move, moveValue) else st)
      ((none : Option Move), XVal.neginf)).1

/-- Instrumentation: the number of `minimax` invocations (search nodes)
performed below one call, replicating the alpha–beta control flow of
`minimax` exactly (the score recomputations drive the same `break`s). -/
def minimaxCalls (board : BoardState) : Nat → XVal → XVal → Bool → Option Position →
    PlayerColor → PlayerColor → Nat
  | 0, _, _, _, _, _, _ => 1
  | depth + 1, alpha, beta, isMaximizing, mustCaptureFrom, currentPlayer, rootPlayer =>
    if winnerTruthy (checkWinner board) then 1
    else
      let moves := getValidMovesForPlayer board currentPlayer mustCaptureFrom
      if moves = [] then 1
      else if isMaximizing then
        1 + (moves.foldl (fun st move =>
          if st.2.2 then st
          else
            let res := applyMove board move
            let nextPlayer := if res.turnEnded then otherColor currentPlayer else currentPlayer
            let nextIsMax := if res.turnEnded then !isMaximizing else isMaximizing
            let evalScore := minimax res.board depth st.2.1 beta nextIsMax
              res.mustCaptureFrom nextPlayer rootPlayer
            let calls := minimaxCalls res.board depth st.2.1 beta nextIsMax
              res.mustCaptureFrom nextPlayer rootPlayer
            let alpha2 := XVal.maxv st.2.1 evalScore
            (st.1 + calls, alpha2, XVal.leb beta alpha2))
          (0, alpha, false)).1
      else
        1 + (moves.foldl (fun st move =>
          if st.2.2 then st
          else
            let res := applyMove board move
            let nextPlayer := if res.turnEnded then otherColor currentPlayer else currentPlayer
            let nextIsMax := if res.turnEnded then !isMaximizing else isMaximizing
            let evalScore := minimax res.board depth alpha st.2.1 nextIsMax
              res.mustCaptureFrom nextPlayer rootPlayer
            let calls := minimaxCalls res.board depth alpha st.2.1 nextIsMax
              res.mustCaptureFrom nextPlayer rootPlayer
            let beta2 := XVal.minv st.2.1 evalScore
            (st.1 + calls, beta2, XVal.leb beta2 alpha))
          (0, beta, false)).1

/-- Instrumentation for `getBestMove`: how many search nodes the call
evaluates.  The `[]` and singleton branches return before any search. -/
def getBestMoveSearchNodes (shuffle : List Move → List Move) (board : BoardState)
    (player : PlayerColor) (mustCaptureFrom : Option Position) : Nat :=
  let moves := getValidMovesForPlayer board player mustCaptureFrom
  match moves with
  | [] => 0
  | [_] => 0
  | _ :: _ :: _ =>
    (shuffle moves).foldl (fun n move =>
      let res := applyMove board move
      let nextPlayer := if res.turnEnded then otherColor player else player
      let isMaximizing := !res.turnEnded
      n + minimaxCalls res.board (DEPTH - 1) XVal.neginf XVal.posinf
        isMaximizing res.mustCaptureFrom nextPlayer player) 0

/-! ### Basic facts about the board representation -/

/-- The 8×8 well-formedness of `BoardState` (`src/types.ts` documents the
board as an 8×8 grid; every board the host ever builds has this shape). -/
def WF (b : BoardState) : Prop := b.length = 8 ∧ ∀ row ∈ b, row.length = 8

instance (b : BoardState) : Decidable (WF b) := by
  unfold WF; infer_instance

theorem isValidPos_iff {r c : Int} :
    isValidPos r c = true ↔ 0 ≤ r ∧ r < 8 ∧ 0 ≤ c ∧ c < 8 := by
  simp [isValidPos, BOARD_SIZE]

theorem boardGet_of_invalid {b : BoardState} {r c : Int}
    (h : ¬ isValidPos r c = true) : boardGet b r c = none := by
  simp [boardGet, h]

theorem isValidPos_of_boardGet_some {b : BoardState} {r c : Int} {p : Piece}
    (h : boardGet b r c = some p) : isValidPos r c = true := by
  by_contra hn
  rw [boardGet_of_invalid hn] at h
  exact Option.noConfusion h

theorem rowLen_of_WF {b : BoardState} (h : WF b) {i : Nat} (hi : i < 8) :
    (b.getD i []).length = 8 := by
  have hib : i < b.length := by rw [h.1]; exact hi
  rw [List.getD_eq_getElem?_getD, List.getElem?_eq_getElem hib]
  exact h.2 _ (List.getElem_mem hib)

theorem WF_boardSet {b : BoardState} (h : WF b) (r c : Int) (v : Option Piece) :
    WF (boardSet b r c v) := by
  unfold boardSet
  split
  · refine ⟨by simp [h.1], ?_⟩
    intro row hrow
    rcases List.mem_or_eq_of_mem_set hrow with h' | h'
    · exact h.2 row h'
    · subst h'
      rw [List.length_set]
      rename_i hv
      have := isValidPos_iff.1 hv
      exact rowLen_of_WF h (by omega)
  · exact h

theorem boardGet_boardSet_self {b : BoardState} (hb : WF b) {r c : Int}
    (hv : isValidPos r c = true) (v : Option Piece) :
    boardGet (boardSet b r c v) r c = v := by
  obtain ⟨hr0, hr8, hc0, hc8⟩ := isValidPos_iff.1 hv
  have hrn : r.toNat < b.length := by rw [hb.1]; omega
  have hcn : c.toNat < (b.getD r.toNat []).length := by
    rw [rowLen_of_WF hb (by omega : r.toNat < 8)]; omega
  unfold boardGet boardSet
  rw [if_pos hv, if_pos hv]
  have hrow : (b.set r.toNat ((b.getD r.toNat []).set c.toNat v)).getD r.toNat []
      = (b.getD r.toNat []).set c.toNat v := by
    rw [List.getD_eq_getElem?_getD ((b.set _ _)), List.getElem?_set_self hrn,
      Option.getD_some]
  rw [hrow, List.getD_eq_getElem?_getD, List.getElem?_set_self hcn, Option.getD_some]

theorem boardGet_boardSet_ne {b : BoardState} {r c r' c' : Int}
    (h : r ≠ r' ∨ c ≠ c') (v : Option Piece) :
    boardGet (boardSet b r c v) r' c' = boardGet b r' c' := by
  unfold boardGet boardSet
  by_cases hv : isValidPos r c = true
  · rw [if_pos hv]
    by_cases hv' : isValidPos r' c' = true
    · rw [if_pos hv', if_pos hv']
      have hvs := isValidPos_iff.1 hv
      have hvs' := isValidPos_iff.1 hv'
      by_cases hr : r.toNat = r'.toNat
      · have hreq : r = r' := by omega
        have hc : c ≠ c' := by
          rcases h with h | h
          · exact absurd hreq h
          · exact h
        have hcnat : c.toNat ≠ c'.toNat := by omega
        by_cases hlen : r.toNat < b.length
        · have hrow : (b.set r.toNat ((b.getD r.toNat []).set c.toNat v)).getD r'.toNat []
              = (b.getD r.toNat []).set c.toNat v := by
            rw [← hr, List.getD_eq_getElem?_getD ((b.set _ _)),
              List.getElem?_set_self hlen, Option.getD_some]
          rw [hrow]
          have hcell : ((b.getD r.toNat []).set c.toNat v).getD c'.toNat none
              = (b.getD r.toNat []).getD c'.toNat none := by
            rw [List.getD_eq_getElem?_getD ((List.set _ _ _)), List.getElem?_set_ne hcnat,
              ← List.getD_eq_getElem?_getD]
          rw [hcell, hr]
        · rw [List.set_eq_of_length_le (by omega)]
      · have hrow : (b.set r.toNat ((b.getD r.toNat []).set c.toNat v)).getD r'.toNat []
            = b.getD r'.toNat [] := by
          rw [List.getD_eq_getElem?_getD ((b.set _ _)), List.getElem?_set_ne hr,
            ← List.getD_eq_getElem?_getD]
        rw [hrow]
    · rw [if_neg hv', if_neg hv']
  · rw [if_neg hv]

/-! ### Characterizing the king capture scan -/

theorem kingCaptureScan_some_mem (b : BoardState) (pos : Position)
    (color : PlayerColor) (dr dc : Int) (ep : Position) :
    ∀ (fuel : Nat) (r0 c0 : Int) (m : Move),
    m ∈ kingCaptureScan b pos color dr dc fuel r0 c0 (some ep) ↔
      ∃ t : Nat, t < fuel ∧
        (∀ i : Nat, i ≤ t → isValidPos (r0 + i * dr) (c0 + i * dc) = true ∧
            boardGet b (r0 + i * dr) (c0 + i * dc) = none) ∧
        m = { from' := pos, to' := ⟨r0 + t * dr, c0 + t * dc⟩, captures := [ep] } := by
  intro fuel
  induction fuel with
  | zero => intro r0 c0 m; simp [kingCaptureScan]
  | succ fuel ih =>
    intro r0 c0 m
    by_cases hv : isValidPos r0 c0 = true
    · cases hcell : boardGet b r0 c0 with
      | none =>
        have hunf : kingCaptureScan b pos color dr dc (fuel + 1) r0 c0 (some ep) =
            { from' := pos, to' := ⟨r0, c0⟩, captures := [ep] } ::
              kingCaptureScan b pos color dr dc fuel (r0 + dr) (c0 + dc) (some ep) := by
          simp [kingCaptureScan, hv, hcell]
        rw [hunf, List.mem_cons, ih (r0 + dr) (c0 + dc) m]
        constructor
        · rintro (hm | ⟨t, ht, hall, hm⟩)
          · refine ⟨0, Nat.succ_pos _, ?_, by simpa using hm⟩
            intro i hi
            have : i = 0 := Nat.le_zero.1 hi
            subst this
            simpa using ⟨hv, hcell⟩
          · refine ⟨t + 1, by omega, ?_, ?_⟩
            · intro i hi
              cases i with
              | zero => simpa using ⟨hv, hcell⟩
              | succ i =>
                have h := hall i (by omega)
                have er : r0 + (↑(i + 1) : Int) * dr = r0 + dr + (↑i : Int) * dr := by
                  push_cast; ring
                have ec : c0 + (↑(i + 1) : Int) * dc = c0 + dc + (↑i : Int) * dc := by
                  push_cast; ring
                rw [er, ec]
                exact h
            · have er : r0 + (↑(t + 1) : Int) * dr = r0 + dr + (↑t : Int) * dr := by
                push_cast; ring
              have ec : c0 + (↑(t + 1) : Int) * dc = c0 + dc + (↑t : Int) * dc := by
                push_cast; ring
              rw [er, ec]
              exact hm
        · rintro ⟨t, ht, hall, hm⟩
          cases t with
          | zero => exact Or.inl (by simpa using hm)
          | succ t =>
            refine Or.inr ⟨t, by omega, ?_, ?_⟩
            · intro i hi
              have h := hall (i + 1) (by omega)
              have er : r0 + (↑(i + 1) : Int) * dr = r0 + dr + (↑i : Int) * dr := by
                push_cast; ring
              have ec : c0 + (↑(i + 1) : Int) * dc = c0 + dc + (↑i : Int) * dc := by
                push_cast; ring
              rw [er, ec] at h
              exact h
            · have er : r0 + (↑(t + 1) : Int) * dr = r0 + dr + (↑t : Int) * dr := by
                push_cast; ring
              have ec : c0 + (↑(t + 1) : Int) * dc = c0 + dc + (↑t : Int) * dc := by
                push_cast; ring
              rw [er, ec] at hm
              exact hm
      | some cell =>
        have hunf : kingCaptureScan b pos color dr dc (fuel + 1) r0 c0 (some ep) = [] := by
          by_cases hco : cell.color = color
          · simp [kingCaptureScan, hv, hcell, hco]
          · simp [kingCaptureScan, hv, hcell, hco]
        rw [hunf]
        simp only [List.not_mem_nil, false_iff]
        rintro ⟨t, ht, hall, hm⟩
        have h0 := hall 0 (Nat.zero_le t)
        simp only [Nat.cast_zero, zero_mul, add_zero] at h0
        rw [hcell] at h0
        exact Option.noConfusion h0.2
    · have hunf : kingCaptureScan b pos color dr dc (fuel + 1) r0 c0 (some ep) = [] := by
        simp [kingCaptureScan, hv]
      rw [hunf]
      simp only [List.not_mem_nil, false_iff]
      rintro ⟨t, ht, hall, hm⟩
      have h0 := hall 0 (Nat.zero_le t)
      simp only [Nat.cast_zero, zero_mul, add_zero] at h0
      exact absurd h0.1 hv

theorem kingCaptureScan_none_mem (b : BoardState) (pos : Position)
    (color : PlayerColor) (dr dc : Int) :
    ∀ (fuel : Nat) (r0 c0 : Int) (m : Move),
    m ∈ kingCaptureScan b pos color dr dc fuel r0 c0 none ↔
      ∃ j t : Nat, j < t ∧ t < fuel ∧
        (∀ i : Nat, i < j → isValidPos (r0 + i * dr) (c0 + i * dc) = true ∧
            boardGet b (r0 + i * dr) (c0 + i * dc) = none) ∧
        isValidPos (r0 + j * dr) (c0 + j * dc) = true ∧
        (∃ p, boardGet b (r0 + j * dr) (c0 + j * dc) = some p ∧ p.color ≠ color) ∧
        (∀ i : Nat, j < i → i ≤ t → isValidPos (r0 + i * dr) (c0 + i * dc) = true ∧
            boardGet b (r0 + i * dr) (c0 + i * dc) = none) ∧
        m = { from' := pos, to' := ⟨r0 + t * dr, c0 + t * dc⟩,
              captures := [⟨r0 + j * dr, c0 + j * dc⟩] } := by
  intro fuel
  induction fuel with
  | zero => intro r0 c0 m; simp [kingCaptureScan]
  | succ fuel ih =>
    intro r0 c0 m
    by_cases hv : isValidPos r0 c0 = true
    · cases hcell : boardGet b r0 c0 with
      | none =>
        have hunf : kingCaptureScan b pos color dr dc (fuel + 1) r0 c0 none =
            kingCaptureScan b pos color dr dc fuel (r0 + dr) (c0 + dc) none := by
          simp [kingCaptureScan, hv, hcell]
        rw [hunf, ih (r0 + dr) (c0 + dc) m]
        constructor
        · rintro ⟨j, t, hjt, ht, hpre, hjv, hjp, hpost, hm⟩
          refine ⟨j + 1, t + 1, by omega, by omega, ?_, ?_, ?_, ?_, ?_⟩
          · intro i hi
            cases i with
            | zero => simpa using ⟨hv, hcell⟩
            | succ i =>
              have h := hpre i (by omega)
              have er : r0 + (↑(i + 1) : Int) * dr = r0 + dr + (↑i : Int) * dr := by
                push_cast; ring
              have ec : c0 + (↑(i + 1) : Int) * dc = c0 + dc + (↑i : Int) * dc := by
                push_cast; ring
              rw [er, ec]
              exact h
          · have er : r0 + (↑(j + 1) : Int) * dr = r0 + dr + (↑j : Int) * dr := by
              push_cast; ring
            have ec : c0 + (↑(j + 1) : Int) * dc = c0 + dc + (↑j : Int) * dc := by
              push_cast; ring
            rw [er, ec]
            exact hjv
          · have er : r0 + (↑(j + 1) : Int) * dr = r0 + dr + (↑j : Int) * dr := by
              push_cast; ring
            have ec : c0 + (↑(j + 1) : Int) * dc = c0 + dc + (↑j : Int) * dc := by
              push_cast; ring
            rw [er, ec]
            exact hjp
          · intro i hi1 hi2
            cases i with
            | zero => omega
            | succ i =>
              have h := hpost i (by omega) (by omega)
              have er : r0 + (↑(i + 1) : Int) * dr = r0 + dr + (↑i : Int) * dr := by
                push_cast; ring
              have ec : c0 + (↑(i + 1) : Int) * dc = c0 + dc + (↑i : Int) * dc := by
                push_cast; ring
              rw [er, ec]
              exact h
          · have er : r0 + (↑(t + 1) : Int) * dr = r0 + dr + (↑t : Int) * dr := by
              push_cast; ring
            have ec : c0 + (↑(t + 1) : Int) * dc = c0 + dc + (↑t : Int) * dc := by
              push_cast; ring
            have er' : r0 + (↑(j + 1) : Int) * dr = r0 + dr + (↑j : Int) * dr := by
              push_cast; ring
            have ec' : c0 + (↑(j + 1) : Int) * dc = c0 + dc + (↑j : Int) * dc := by
              push_cast; ring
            rw [er, ec, er', ec']
            exact hm
        · rintro ⟨j, t, hjt, ht, hpre, hjv, hjp, hpost, hm⟩
          cases j with
          | zero =>
            obtain ⟨p, hp, _⟩ := hjp
            simp only [Nat.cast_zero, zero_mul, add_zero] at hp
            rw [hcell] at hp
            exact Option.noConfusion hp
          | succ j =>
            cases t with
            | zero => omega
            | succ t =>
              refine ⟨j, t, by omega, by omega, ?_, ?_, ?_, ?_, ?_⟩
              · intro i hi
                have h := hpre (i + 1) (by omega)
                have er : r0 + (↑(i + 1) : Int) * dr = r0 + dr + (↑i : Int) * dr := by
                  push_cast; ring
                have ec : c0 + (↑(i + 1) : Int) * dc = c0 + dc + (↑i : Int) * dc := by
                  push_cast; ring
                rw [er, ec] at h
                exact h
              · have h := hjv
                have er : r0 + (↑(j + 1) : Int) * dr = r0 + dr + (↑j : Int) * dr := by
                  push_cast; ring
                have ec : c0 + (↑(j + 1) : Int) * dc = c0 + dc + (↑j : Int) * dc := by
                  push_cast; ring
                rw [er, ec] at h
                exact h
              · have h := hjp
                have er : r0 + (↑(j + 1) : Int) * dr = r0 + dr + (↑j : Int) * dr := by
                  push_cast; ring
                have ec : c0 + (↑(j + 1) : Int) * dc = c0 + dc + (↑j : Int) * dc := by
                  push_cast; ring
                rw [er, ec] at h
                exact h
              · intro i hi1 hi2
                have h := hpost (i + 1) (by omega) (by omega)
                have er : r0 + (↑(i + 1) : Int) * dr = r0 + dr + (↑i : Int) * dr := by
                  push_cast; ring
                have ec : c0 + (↑(i + 1) : Int) * dc = c0 + dc + (↑i : Int) * dc := by
                  push_cast; ring
                rw [er, ec] at h
                exact h
              · have h := hm
                have er : r0 + (↑(t + 1) : Int) * dr = r0 + dr + (↑t : Int) * dr := by
                  push_cast; ring
                have ec : c0 + (↑(t + 1) : Int) * dc = c0 + dc + (↑t : Int) * dc := by
                  push_cast; ring
                have er' : r0 + (↑(j + 1) : Int) * dr = r0 + dr + (↑j : Int) * dr := by
                  push_cast; ring
                have ec' : c0 + (↑(j + 1) : Int) * dc = c0 + dc + (↑j : Int) * dc := by
                  push_cast; ring
                rw [er, ec, er', ec'] at h
                exact h
      | some cell =>
        by_cases hco : cell.color = color
        · have hunf : kingCaptureScan b pos color dr dc (fuel + 1) r0 c0 none = [] := by
            simp [kingCaptureScan, hv, hcell, hco]
          rw [hunf]
          simp only [List.not_mem_nil, false_iff]
          rintro ⟨j, t, hjt, ht, hpre, hjv, hjp, hpost, hm⟩
          cases j with
          | zero =>
            obtain ⟨p, hp, hpc⟩ := hjp
            simp only [Nat.cast_zero, zero_mul, add_zero] at hp
            rw [hcell] at hp
            exact hpc (by cases hp; exact hco)
          | succ j =>
            have h := hpre 0 (by omega)
            simp only [Nat.cast_zero, zero_mul, add_zero] at h
            rw [hcell] at h
            exact Option.noConfusion h.2
        · have hunf : kingCaptureScan b pos color dr dc (fuel + 1) r0 c0 none =
              kingCaptureScan b pos color dr dc fuel (r0 + dr) (c0 + dc) (some ⟨r0, c0⟩) := by
            simp [kingCaptureScan, hv, hcell, hco]
          rw [hunf, kingCaptureScan_some_mem b pos color dr dc ⟨r0, c0⟩ fuel (r0 + dr) (c0 + dc) m]
          constructor
          · rintro ⟨t, ht, hall, hm⟩
            refine ⟨0, t + 1, by omega, by omega, by omega, by simpa using hv, ?_, ?_, ?_⟩
            · exact ⟨cell, by simpa using hcell, hco⟩
            · intro i hi1 hi2
              cases i with
              | zero => omega
              | succ i =>
                have h := hall i (by omega)
                have er : r0 + (↑(i + 1) : Int) * dr = r0 + dr + (↑i : Int) * dr := by
                  push_cast; ring
                have ec : c0 + (↑(i + 1) : Int) * dc = c0 + dc + (↑i : Int) * dc := by
                  push_cast; ring
                rw [er, ec]
                exact h
            · have er : r0 + (↑(t + 1) : Int) * dr = r0 + dr + (↑t : Int) * dr := by
                push_cast; ring
              have ec : c0 + (↑(t + 1) : Int) * dc = c0 + dc + (↑t : Int) * dc := by
                push_cast; ring
              rw [er, ec]
              simpa using hm
          · rintro ⟨j, t, hjt, ht, hpre, hjv, hjp, hpost, hm⟩
            have hj0 : j = 0 := by
              by_contra hj
              have h := hpre 0 (by omega)
              simp only [Nat.cast_zero, zero_mul, add_zero] at h
              rw [hcell] at h
              exact Option.noConfusion h.2
            subst hj0
            cases t with
            | zero => omega
            | succ t =>
              refine ⟨t, by omega, ?_, ?_⟩
              · intro i hi
                have h := hpost (i + 1) (by omega) (by omega)
                have er : r0 + (↑(i + 1) : Int) * dr = r0 + dr + (↑i : Int) * dr := by
                  push_cast; ring
                have ec : c0 + (↑(i + 1) : Int) * dc = c0 + dc + (↑i : Int) * dc := by
                  push_cast; ring
                rw [er, ec] at h
                exact h
              · have h := hm
                have er : r0 + (↑(t + 1) : Int) * dr = r0 + dr + (↑t : Int) * dr := by
                  push_cast; ring
                have ec : c0 + (↑(t + 1) : Int) * dc = c0 + dc + (↑t : Int) * dc := by
                  push_cast; ring
                rw [er, ec] at h
                simpa using h
    · have hunf : kingCaptureScan b pos color dr dc (fuel + 1) r0 c0 none = [] := by
        simp [kingCaptureScan, hv]
      rw [hunf]
      simp only [List.not_mem_nil, false_iff]
      rintro ⟨j, t, hjt, ht, hpre, hjv, hjp, hpost, hm⟩
      cases j with
      | zero =>
        simp only [Nat.cast_zero, zero_mul, add_zero] at hjv
        exact absurd hjv hv
      | succ j =>
        have h := hpre 0 (by omega)
        simp only [Nat.cast_zero, zero_mul, add_zero] at h
        exact absurd h.1 hv

theorem ray_shift (x d : Int) (i : Nat) :
    x + (↑(i + 1) : Int) * d = x + d + (↑i : Int) * d := by
  push_cast; ring

theorem dir_cases {dr dc : Int} (hdir : (dr, dc) ∈ DIRECTIONS) :
    (dr = -1 ∨ dr = 1) ∧ (dc = -1 ∨ dc = 1) := by
  simp only [DIRECTIONS, List.mem_cons, List.mem_singleton, Prod.mk.injEq,
    List.not_mem_nil, or_false] at hdir
  rcases hdir with ⟨h1, h2⟩ | ⟨h1, h2⟩ | ⟨h1, h2⟩ | ⟨h1, h2⟩ <;>
    exact ⟨by omega, by omega⟩

/-- C4: the raw capture moves of a king in one diagonal direction are
exactly the moves landing on an empty valid square `k` steps out whose ray
prefix contains exactly one piece — an enemy, `j < k` steps out, recorded as
the single capture.  In particular empty squares short of the enemy are not
destinations, a friendly first piece blocks the direction, and a second
piece ends the landing run. -/
theorem kingCaptureMovesInDir_mem (b : BoardState) {pos : Position} {piece : Piece}
    (hpiece : boardGet b pos.row pos.col = some piece) {dr dc : Int}
    (hdir : (dr, dc) ∈ DIRECTIONS) (m : Move) :
    m ∈ kingCaptureMovesInDir b pos piece.color (dr, dc) ↔
      ∃ k j : Nat, 1 ≤ j ∧ j < k ∧
        (∀ i : Nat, 1 ≤ i → i ≤ k →
            isValidPos (pos.row + i * dr) (pos.col + i * dc) = true) ∧
        (∃ p, boardGet b (pos.row + j * dr) (pos.col + j * dc) = some p ∧
            p.color ≠ piece.color) ∧
        (∀ i : Nat, 1 ≤ i → i ≤ k → i ≠ j →
            boardGet b (pos.row + i * dr) (pos.col + i * dc) = none) ∧
        m = { from' := pos, to' := ⟨pos.row + k * dr, pos.col + k * dc⟩,
              captures := [⟨pos.row + j * dr, pos.col + j * dc⟩] } := by
  have hpv := isValidPos_of_boardGet_some hpiece
  have hpb := isValidPos_iff.1 hpv
  have hdr := (dir_cases hdir).1
  unfold kingCaptureMovesInDir
  rw [kingCaptureScan_none_mem b pos piece.color dr dc 8 (pos.row + dr) (pos.col + dc) m]
  constructor
  · rintro ⟨j, t, hjt, ht, hpre, hjv, hjp, hpost, hm⟩
    refine ⟨t + 1, j + 1, by omega, by omega, ?_, ?_, ?_, ?_⟩
    · intro i hi1 hik
      cases i with
      | zero => omega
      | succ i =>
        rw [ray_shift pos.row dr i, ray_shift pos.col dc i]
        rcases Nat.lt_trichotomy i j with h | h | h
        · exact (hpre i h).1
        · subst h; exact hjv
        · exact (hpost i h (by omega)).1
    · rw [ray_shift pos.row dr j, ray_shift pos.col dc j]
      exact hjp
    · intro i hi1 hik hij
      cases i with
      | zero => omega
      | succ i =>
        rw [ray_shift pos.row dr i, ray_shift pos.col dc i]
        rcases Nat.lt_trichotomy i j with h | h | h
        · exact (hpre i h).2
        · omega
        · exact (hpost i h (by omega)).2
    · rw [ray_shift pos.row dr t, ray_shift pos.col dc t,
        ray_shift pos.row dr j, ray_shift pos.col dc j]
      exact hm
  · rintro ⟨k, j, hj1, hjk, hvalid, hjp, hempty, hm⟩
    have hkv := hvalid k (by omega) le_rfl
    have hkb := isValidPos_iff.1 hkv
    have hk7 : k ≤ 7 := by
      rcases hdr with h | h
      · subst h
        have e : (k : Int) * (-1) = -(k : Int) := by ring
        rw [e] at hkb
        omega
      · subst h
        have e : (k : Int) * 1 = (k : Int) := by ring
        rw [e] at hkb
        omega
    obtain ⟨j', rfl⟩ : ∃ j', j = j' + 1 := ⟨j - 1, by omega⟩
    obtain ⟨t', rfl⟩ : ∃ t', k = t' + 1 := ⟨k - 1, by omega⟩
    refine ⟨j', t', by omega, by omega, ?_, ?_, ?_, ?_, ?_⟩
    · intro i hi
      constructor
      · rw [← ray_shift pos.row dr i, ← ray_shift pos.col dc i]
        exact hvalid (i + 1) (by omega) (by omega)
      · rw [← ray_shift pos.row dr i, ← ray_shift pos.col dc i]
        exact hempty (i + 1) (by omega) (by omega) (by omega)
    · rw [← ray_shift pos.row dr j', ← ray_shift pos.col dc j']
      exact hvalid (j' + 1) (by omega) (by omega)
    · rw [← ray_shift pos.row dr j', ← ray_shift pos.col dc j']
      exact hjp
    · intro i hi1 hi2
      constructor
      · rw [← ray_shift pos.row dr i, ← ray_shift pos.col dc i]
        exact hvalid (i + 1) (by omega) (by omega)
      · rw [← ray_shift pos.row dr i, ← ray_shift pos.col dc i]
        exact hempty (i + 1) (by omega) (by omega) (by omega)
    · rw [← ray_shift pos.row dr t', ← ray_shift pos.col dc t',
        ← ray_shift pos.row dr j', ← ray_shift pos.col dc j']
      exact hm

theorem kingSlide_mem (b : BoardState) (pos : Position) (dr dc : Int) :
    ∀ (fuel : Nat) (r0 c0 : Int) (m : Move),
    m ∈ kingSlide b pos dr dc fuel r0 c0 →
    ∃ t : Nat, isValidPos (r0 + t * dr) (c0 + t * dc) = true ∧
      boardGet b (r0 + t * dr) (c0 + t * dc) = none ∧
      m = { from' := pos, to' := ⟨r0 + t * dr, c0 + t * dc⟩, captures := [] } := by
  intro fuel
  induction fuel with
  | zero => intro r0 c0 m hm; simp [kingSlide] at hm
  | succ fuel ih =>
    intro r0 c0 m hm
    by_cases hv : isValidPos r0 c0 = true
    · cases hcell : boardGet b r0 c0 with
      | none =>
        rw [show kingSlide b pos dr dc (fuel + 1) r0 c0 =
            { from' := pos, to' := ⟨r0, c0⟩, captures := [] } ::
              kingSlide b pos dr dc fuel (r0 + dr) (c0 + dc) by
          simp [kingSlide, hv, hcell]] at hm
        rcases List.mem_cons.1 hm with hm | hm
        · exact ⟨0, by simpa using hv, by simpa using hcell, by simpa using hm⟩
        · obtain ⟨t, h1, h2, h3⟩ := ih (r0 + dr) (c0 + dc) m hm
          refine ⟨t + 1, ?_, ?_, ?_⟩ <;>
            rw [ray_shift r0 dr t, ray_shift c0 dc t] <;> assumption
      | some cell =>
        rw [show kingSlide b pos dr dc (fuel + 1) r0 c0 = [] by
          simp [kingSlide, hv, hcell]] at hm
        exact absurd hm (List.not_mem_nil m)
    · rw [show kingSlide b pos dr dc (fuel + 1) r0 c0 = [] by simp [kingSlide, hv]] at hm
      exact absurd hm (List.not_mem_nil m)

theorem forwardDirs_subset (c : PlayerColor) :
    ∀ d ∈ forwardDirs c, d ∈ DIRECTIONS := by
  intro d hd
  unfold forwardDirs at hd
  split at hd <;> simp only [DIRECTIONS, List.mem_cons, List.mem_singleton] at hd ⊢ <;>
    tauto

/-- Shape of every raw move produced by `getMovesForPiece` for a piece that
actually sits at `pos`: the move starts at `pos`, lands `k ≥ 1` diagonal steps
away on an empty valid square, and carries either no capture or exactly the
one enemy strictly between origin and landing square. -/
theorem getMovesForPiece_shape {b : BoardState} {pos : Position} {piece : Piece}
    (hpiece : boardGet b pos.row pos.col = some piece) {m : Move}
    (hm : m ∈ getMovesForPiece b pos piece) :
    m.from' = pos ∧
    ∃ dr dc, (dr, dc) ∈ DIRECTIONS ∧ ∃ k : Nat, 1 ≤ k ∧
      m.to'.row = pos.row + k * dr ∧ m.to'.col = pos.col + k * dc ∧
      isValidPos m.to'.row m.to'.col = true ∧
      boardGet b m.to'.row m.to'.col = none ∧
      (m.captures = [] ∨
        ∃ j : Nat, 1 ≤ j ∧ j < k ∧
          m.captures = [⟨pos.row + j * dr, pos.col + j * dc⟩] ∧
          ∃ p, boardGet b (pos.row + j * dr) (pos.col + j * dc) = some p ∧
            p.color ≠ piece.color) := by
  unfold getMovesForPiece at hm
  simp only [List.mem_append] at hm
  rcases hm with hm | hm
  · -- non-capture part
    by_cases hk : piece.isKing = true
    · rw [if_pos hk] at hm
      simp only [List.mem_flatMap] at hm
      obtain ⟨d, hd, hm⟩ := hm
      obtain ⟨t, h1, h2, h3⟩ := kingSlide_mem b pos d.1 d.2 8 (pos.row + d.1) (pos.col + d.2) m hm
      rw [← ray_shift pos.row d.1 t, ← ray_shift pos.col d.2 t] at h1 h2 h3
      subst h3
      exact ⟨rfl, d.1, d.2, by simpa using hd, t + 1, by omega, rfl, rfl, h1, h2, Or.inl rfl⟩
    · rw [if_neg hk] at hm
      simp only [List.mem_filterMap] at hm
      obtain ⟨d, hd, hm⟩ := hm
      split at hm
      · rename_i hcond
        injection hm with hm
        subst hm
        refine ⟨rfl, d.1, d.2, forwardDirs_subset _ _ hd, 1, le_rfl, ?_, ?_, ?_, ?_, Or.inl rfl⟩
        · simp
        · simp
        · simpa using hcond.1
        · simpa using hcond.2
      · exact absurd hm (Option.noConfusion)
  · -- capture part
    by_cases hk : piece.isKing = true
    · rw [if_pos hk] at hm
      simp only [List.mem_flatMap] at hm
      obtain ⟨d, hd, hm⟩ := hm
      have hd' : ((d.1, d.2) : Int × Int) ∈ DIRECTIONS := by simpa using hd
      obtain ⟨k, j, hj1, hjk, hvalid, ⟨p, hp, hpc⟩, hempty, hmm⟩ :=
        (kingCaptureMovesInDir_mem b hpiece hd' m).1 (by simpa using hm)
      subst hmm
      refine ⟨rfl, d.1, d.2, hd', k, by omega, rfl, rfl, ?_, ?_, Or.inr ⟨j, hj1, hjk, rfl, p, hp, hpc⟩⟩
      · exact hvalid k (by omega) le_rfl
      · exact hempty k (by omega) le_rfl (by omega)
    · rw [if_neg hk] at hm
      simp only [List.mem_filterMap] at hm
      obtain ⟨d, hd, hm⟩ := hm
      split at hm
      · rename_i hvd
        split at hm
        · rename_i midPiece hmid hdest
          split at hm
          · rename_i hcol
            injection hm with hm
            subst hm
            refine ⟨rfl, d.1, d.2, forwardDirs_subset _ _ hd, 2, by omega, ?_, ?_, ?_, ?_, ?_⟩
            · push_cast; ring
            · push_cast; ring
            · simpa using hvd
            · simpa using hdest
            · refine Or.inr ⟨1, le_rfl, by omega, ?_, midPiece, ?_, hcol⟩
              · simp
              · simpa using hmid
          · exact absurd hm (Option.noConfusion)
        · exact absurd hm (Option.noConfusion)
      · exact absurd hm (Option.noConfusion)

/-- Consequences of `getMovesForPiece_shape` used by the frame and invariant
theorems: distinct rows for origin, landing and captured squares, square
parity preservation, empty landing square, and the single enemy capture. -/
theorem move_facts {b : BoardState} {pos : Position} {piece : Piece}
    (hpiece : boardGet b pos.row pos.col = some piece) {m : Move}
    (hm : m ∈ getMovesForPiece b pos piece) :
    m.from' = pos ∧
    isValidPos m.to'.row m.to'.col = true ∧
    boardGet b m.to'.row m.to'.col = none ∧
    m.to'.row ≠ pos.row ∧
    (m.to'.row + m.to'.col) % 2 = (pos.row + pos.col) % 2 ∧
    (m.captures = [] ∨ ∃ cap p, m.captures = [cap] ∧ cap.row ≠ pos.row ∧
        cap.row ≠ m.to'.row ∧ boardGet b cap.row cap.col = some p ∧
        p.color ≠ piece.color) := by
  obtain ⟨hfrom, dr, dc, hdir, k, hk1, hrow, hcol, hval, hempt, hcap⟩ :=
    getMovesForPiece_shape hpiece hm
  obtain ⟨hdr, hdc⟩ := dir_cases hdir
  refine ⟨hfrom, hval, hempt, ?_, ?_, ?_⟩
  · rw [hrow]
    rcases hdr with h | h <;> subst h <;> omega
  · rw [hrow, hcol]
    rcases hdr with h | h <;> rcases hdc with h' | h' <;> subst h <;> subst h' <;> omega
  · rcases hcap with h | ⟨j, hj1, hjk, hcaps, p, hp, hpc⟩
    · exact Or.inl h
    · refine Or.inr ⟨⟨pos.row + j * dr, pos.col + j * dc⟩, p, hcaps, ?_, ?_, hp, hpc⟩
      · rcases hdr with h | h <;> subst h <;> simp only [] <;> omega
      · rw [hrow]
        rcases hdr with h | h <;> subst h <;> simp only [] <;> omega

theorem playerPieces_mem {b : BoardState} {player : PlayerColor} {pos : Position}
    {piece : Piece} (h : (pos, piece) ∈ playerPieces b player) :
    boardGet b pos.row pos.col = some piece ∧ piece.color = player := by
  unfold playerPieces at h
  obtain ⟨r, hrmem, hin⟩ := List.mem_flatMap.1 h
  obtain ⟨c, hcmem, hf⟩ := List.mem_filterMap.1 hin
  rcases hcell : boardGet b (r : Int) (c : Int) with _ | piece'
  · rw [hcell] at hf
    exact absurd hf Option.noConfusion
  · rw [hcell] at hf
    simp only [] at hf
    by_cases hco : piece'.color = player
    · rw [if_pos hco] at hf
      injection hf with hf
      have h1 : pos = ⟨(r : Int), (c : Int)⟩ := congrArg Prod.fst hf |>.symm
      have h2 : piece = piece' := congrArg Prod.snd hf |>.symm
      subst h1; subst h2
      exact ⟨hcell, hco⟩
    · rw [if_neg hco] at hf
      exact absurd hf Option.noConfusion

theorem mem_captureFilter {b : BoardState} {pos : Position} {piece : Piece} {m : Move}
    (h : m ∈ (getMovesForPiece b pos piece).filter (fun m => decide (0 < m.captures.length))) :
    m ∈ getMovesForPiece b pos piece ∧ m.captures ≠ [] := by
  obtain ⟨h1, h2⟩ := List.mem_filter.1 h
  refine ⟨h1, ?_⟩
  have := of_decide_eq_true h2
  exact List.ne_nil_of_length_pos this

/-- Structure of every chain returned by the capture-chain recursion: the
accumulated prefix `cur` followed by a suffix of capture moves, the first of
which is a raw capture move of the piece at `pos`; `count` is the length. -/
theorem go_shape :
    ∀ (fuel : Nat) (b : BoardState) (pos : Position) (cur : List Move)
      (ch : ChainResult), ch ∈ getMaxCaptureChainGo b pos cur fuel →
    ch.count = ch.moves.length ∧
    ∃ suffix, ch.moves = cur ++ suffix ∧
      (suffix = [] → cur ≠ []) ∧
      (∀ m ∈ suffix, m.captures ≠ []) ∧
      (∀ m, suffix.head? = some m →
        ∃ piece, boardGet b pos.row pos.col = some piece ∧
          m ∈ getMovesForPiece b pos piece ∧ m.captures ≠ []) := by
  intro fuel
  induction fuel with
  | zero => intro b pos cur ch hch; simp [getMaxCaptureChainGo] at hch
  | succ fuel ih =>
    intro b pos cur ch hch
    rw [getMaxCaptureChainGo] at hch
    split at hch
    · simp at hch
    · rename_i piece hp
      dsimp only at hch
      by_cases hcm : (getMovesForPiece b pos piece).filter
          (fun m => decide (0 < m.captures.length)) = []
      · rw [if_pos hcm] at hch
        by_cases hcur : 0 < cur.length
        · rw [if_pos hcur] at hch
          rcases List.mem_singleton.1 hch with rfl
          refine ⟨by simp, [], by simp, fun _ => List.ne_nil_of_length_pos hcur, ?_, ?_⟩
          · intro m hm
            simp at hm
          · intro m hm
            simp at hm
        · rw [if_neg hcur] at hch
          simp at hch
      · rw [if_neg hcm] at hch
        obtain ⟨move, hmove, hbody⟩ := List.mem_flatMap.1 hch
        obtain ⟨hmove', hmovecap⟩ := mem_captureFilter hmove
        by_cases hterm : (!piece.isKing && reachedEndB piece.color move) = true
        · rw [if_pos hterm] at hbody
          rcases List.mem_singleton.1 hbody with rfl
          refine ⟨by simp, [move], rfl, by simp, ?_, ?_⟩
          · intro m hm
            rcases List.mem_singleton.1 hm with rfl
            exact hmovecap
          · intro m hm
            injection hm with hm
            subst hm
            exact ⟨piece, hp, hmove', hmovecap⟩
        · rw [if_neg hterm] at hbody
          by_cases hsub : getMaxCaptureChainGo (simulateCapture b move) move.to'
              (cur ++ [move]) fuel = []
          · rw [if_pos hsub] at hbody
            rcases List.mem_singleton.1 hbody with rfl
            refine ⟨by simp, [move], rfl, by simp, ?_, ?_⟩
            · intro m hm
              rcases List.mem_singleton.1 hm with rfl
              exact hmovecap
            · intro m hm
              injection hm with hm
              subst hm
              exact ⟨piece, hp, hmove', hmovecap⟩
          · rw [if_neg hsub] at hbody
            obtain ⟨hcount, suffix', hmoves, _, hcaps, _⟩ :=
              ih (simulateCapture b move) move.to' (cur ++ [move]) ch hbody
            refine ⟨hcount, move :: suffix', ?_, by simp, ?_, ?_⟩
            · rw [hmoves]
              simp
            · intro m hm
              rcases List.mem_cons.1 hm with rfl | hm
              · exact hmovecap
              · exact hcaps m hm
            · intro m hm
              injection hm with hm
              subst hm
              exact ⟨piece, hp, hmove', hmovecap⟩

theorem simulateCapture_to {b : BoardState} (hWF : WF b) {pos : Position}
    {piece : Piece} (hpiece : boardGet b pos.row pos.col = some piece) {m : Move}
    (hm : m ∈ getMovesForPiece b pos piece) (hcap : m.captures ≠ []) :
    boardGet (simulateCapture b m) m.to'.row m.to'.col = some piece ∧
    WF (simulateCapture b m) := by
  obtain ⟨hfrom, hval, hempt, hto, hpar, hcaps⟩ := move_facts hpiece hm
  rcases hcaps with h | ⟨cap, p, hcapeq, hcp, hct, hcpget, hcpc⟩
  · exact absurd h hcap
  · unfold simulateCapture
    rw [hcapeq]
    have hWF1 : WF (boardSet b cap.row cap.col none) := WF_boardSet hWF _ _ _
    have hWF2 : WF (boardSet (boardSet b cap.row cap.col none) m.to'.row m.to'.col
        (boardGet (boardSet b cap.row cap.col none) m.from'.row m.from'.col)) :=
      WF_boardSet hWF1 _ _ _
    refine ⟨?_, WF_boardSet hWF2 _ _ _⟩
    have h1 : boardGet (boardSet b cap.row cap.col none) m.from'.row m.from'.col
        = some piece := by
      rw [boardGet_boardSet_ne (Or.inl ?_)]
      · rw [hfrom]; exact hpiece
      · rw [hfrom]; exact hcp
    have h2 : boardGet (boardSet (boardSet b cap.row cap.col none) m.to'.row m.to'.col
        (boardGet (boardSet b cap.row cap.col none) m.from'.row m.from'.col))
        m.to'.row m.to'.col = some piece := by
      rw [boardGet_boardSet_self hWF1 hval, h1]
    rw [boardGet_boardSet_ne (Or.inl ?_), h2]
    rw [hfrom]
    intro heq
    exact hto heq.symm

/-- In a man's capture chain, only the final move can land on the far row:
the recursion pushes a promoting capture as a complete chain and never
recurses past it. -/
theorem go_promo :
    ∀ (fuel : Nat) (b : BoardState) (pos : Position) (cur : List Move)
      (piece : Piece), WF b → boardGet b pos.row pos.col = some piece →
      piece.isKing = false →
    ∀ ch ∈ getMaxCaptureChainGo b pos cur fuel,
    ∃ suffix, ch.moves = cur ++ suffix ∧
      ∀ m ∈ suffix.dropLast, reachedEndB piece.color m = false := by
  intro fuel
  induction fuel with
  | zero => intro b pos cur piece _ _ _ ch hch; simp [getMaxCaptureChainGo] at hch
  | succ fuel ih =>
    intro b pos cur piece hWF hpiece hman ch hch
    rw [getMaxCaptureChainGo] at hch
    split at hch
    · simp at hch
    · rename_i piece' hp
      have hpp : piece' = piece := by
        rw [hpiece] at hp
        injection hp with hp
        exact hp.symm
      rw [hpp] at hch
      dsimp only at hch
      by_cases hcm : (getMovesForPiece b pos piece).filter
          (fun m => decide (0 < m.captures.length)) = []
      · rw [if_pos hcm] at hch
        by_cases hcur : 0 < cur.length
        · rw [if_pos hcur] at hch
          rcases List.mem_singleton.1 hch with rfl
          exact ⟨[], by simp, by simp⟩
        · rw [if_neg hcur] at hch
          simp at hch
      · rw [if_neg hcm] at hch
        obtain ⟨move, hmove, hbody⟩ := List.mem_flatMap.1 hch
        obtain ⟨hmove', hmovecap⟩ := mem_captureFilter hmove
        by_cases hterm : (!piece.isKing && reachedEndB piece.color move) = true
        · rw [if_pos hterm] at hbody
          rcases List.mem_singleton.1 hbody with rfl
          exact ⟨[move], rfl, by simp⟩
        · rw [if_neg hterm] at hbody
          have hnotend : reachedEndB piece.color move = false := by
            rw [Bool.and_eq_true, Bool.not_eq_true'] at hterm
            rcases Bool.eq_false_or_eq_true (reachedEndB piece.color move) with h | h
            · exact absurd ⟨by rw [hman], h⟩ hterm
            · exact h
          by_cases hsub : getMaxCaptureChainGo (simulateCapture b move) move.to'
              (cur ++ [move]) fuel = []
          · rw [if_pos hsub] at hbody
            rcases List.mem_singleton.1 hbody with rfl
            exact ⟨[move], rfl, by simp⟩
          · rw [if_neg hsub] at hbody
            obtain ⟨hsimget, hsimWF⟩ := simulateCapture_to hWF hpiece hmove' hmovecap
            obtain ⟨suffix', hmoves, hrest⟩ :=
              ih (simulateCapture b move) move.to' (cur ++ [move]) piece
                hsimWF hsimget hman ch hbody
            refine ⟨move :: suffix', by rw [hmoves]; simp, ?_⟩
            intro m hm
            rcases hsuf : suffix' with _ | ⟨s, ss⟩
            · rw [hsuf] at hm
              simp at hm
            · rw [hsuf, List.dropLast_cons₂] at hm
              rcases List.mem_cons.1 hm with rfl | hm
              · exact hnotend
              · rw [hsuf] at hrest
                exact hrest m hm

theorem foldl_max_le_acc (l : List CaptureSeq) (a : Nat) :
    a ≤ l.foldl (fun acc s => Nat.max acc s.count) a := by
  induction l generalizing a with
  | nil => exact le_rfl
  | cons x xs ih => exact le_trans (Nat.le_max_left a x.count) (ih _)

theorem foldl_max_le_mem {l : List CaptureSeq} {s : CaptureSeq} (h : s ∈ l)
    (a : Nat) : s.count ≤ l.foldl (fun acc x => Nat.max acc x.count) a := by
  induction l generalizing a with
  | nil => exact absurd h (List.not_mem_nil s)
  | cons x xs ih =>
    rcases List.mem_cons.1 h with rfl | h
    · exact le_trans (Nat.le_max_right a s.count) (foldl_max_le_acc _ _)
    · exact ih h _

theorem targetPieces_mem {b : BoardState} {p : PlayerColor} {lock : Option Position}
    {pc : Position × Piece} (h : pc ∈ targetPieces b p lock) :
    pc ∈ playerPieces b p := by
  unfold targetPieces at h
  cases lock with
  | none => exact h
  | some q => exact (List.mem_filter.1 h).1

theorem captureSequences_mem {b : BoardState} {p : PlayerColor}
    {lock : Option Position} {s : CaptureSeq}
    (h : s ∈ captureSequences b p lock) :
    ∃ pos piece ch, (pos, piece) ∈ targetPieces b p lock ∧
      boardGet b pos.row pos.col = some piece ∧ piece.color = p ∧
      ch ∈ getMaxCaptureChain b pos ∧ s.start = pos ∧ s.moves = ch.moves ∧
      s.count = ch.count := by
  unfold captureSequences at h
  obtain ⟨pc, hpc, hmap⟩ := List.mem_flatMap.1 h
  obtain ⟨ch, hch, hs⟩ := List.mem_map.1 hmap
  obtain ⟨hget, hcol⟩ := playerPieces_mem (targetPieces_mem hpc)
  subst hs
  exact ⟨pc.1, pc.2, ch, hpc, hget, hcol, hch, rfl, rfl, rfl⟩

/-- Every entry of `captureSequences` is a non-empty chain whose first move
is a raw capture move of the piece at its start square. -/
theorem captureSequences_facts {b : BoardState} {p : PlayerColor}
    {lock : Option Position} {s : CaptureSeq}
    (h : s ∈ captureSequences b p lock) :
    s.count = s.moves.length ∧ s.moves ≠ [] ∧
    ∃ piece, boardGet b s.start.row s.start.col = some piece ∧ piece.color = p ∧
      ∀ m, s.moves.head? = some m →
        m ∈ getMovesForPiece b s.start piece ∧ m.captures ≠ [] := by
  obtain ⟨pos, piece, ch, hpc, hget, hcol, hch, hstart, hmoves, hcount⟩ :=
    captureSequences_mem h
  obtain ⟨hcnt, suffix, hsuf, hnil, _, hhead⟩ := go_shape 64 b pos [] ch hch
  rw [List.nil_append] at hsuf
  have hne : ch.moves ≠ [] := by
    intro hempty
    exact (hnil (by rw [← hsuf, hempty])) rfl
  subst hstart
  refine ⟨by rw [hmoves, hcount, hcnt], by rw [hmoves]; exact hne, piece, hget, hcol, ?_⟩
  intro m hm
  rw [hmoves, hsuf] at hm
  obtain ⟨piece', hp', hmem', hcap'⟩ := hhead m hm
  have : piece' = piece := by
    rw [hget] at hp'
    injection hp' with hp'
    exact hp'.symm
  subst this
  exact ⟨hmem', hcap'⟩

theorem mem_mapSet {acc : List Move} {m x : Move} (h : x ∈ mapSet acc m) :
    x ∈ acc ∨ x = m := by
  unfold mapSet at h
  split at h
  · rcases List.mem_map.1 h with ⟨y, hy, hxy⟩
    by_cases hk : moveKey y = moveKey m
    · rw [if_pos hk] at hxy
      exact Or.inr hxy.symm
    · rw [if_neg hk] at hxy
      exact Or.inl (hxy ▸ hy)
  · rcases List.mem_append.1 h with h | h
    · exact Or.inl h
    · exact Or.inr (List.mem_singleton.1 h)

theorem mem_distinctMoves {l : List Move} {x : Move} (h : x ∈ distinctMoves l) :
    x ∈ l := by
  unfold distinctMoves at h
  suffices haux : ∀ (l : List Move) (acc : List Move) (x : Move),
      x ∈ l.foldl mapSet acc → x ∈ acc ∨ x ∈ l by
    rcases haux l [] x h with h' | h'
    · exact absurd h' (List.not_mem_nil x)
    · exact h'
  intro l
  induction l with
  | nil => exact fun acc x h => Or.inl h
  | cons m rest ih =>
    intro acc x h
    rcases ih (mapSet acc m) x h with h' | h'
    · rcases mem_mapSet h' with h'' | h''
      · exact Or.inl h''
      · exact Or.inr (h'' ▸ List.mem_cons_self m rest)
    · exact Or.inr (List.mem_cons_of_mem m h')

/-- Every move handed out by `getValidMovesForPlayer` is a raw move of one of
the player's own pieces, generated at the square that piece occupies. -/
theorem getValidMoves_shape {b : BoardState} {p : PlayerColor}
    {lock : Option Position} {m : Move}
    (hm : m ∈ getValidMovesForPlayer b p lock) :
    ∃ piece, boardGet b m.from'.row m.from'.col = some piece ∧ piece.color = p ∧
      m ∈ getMovesForPiece b m.from' piece := by
  unfold getValidMovesForPlayer at hm
  by_cases hmax : 0 < maxCaptureCount b p lock
  · rw [if_pos hmax] at hm
    have hm' := mem_distinctMoves hm
    obtain ⟨s, hs, hhead⟩ := List.mem_map.1 hm'
    have hsmem : s ∈ captureSequences b p lock := (List.mem_filter.1 hs).1
    obtain ⟨_, hne, piece, hget, hcol, hfirst⟩ := captureSequences_facts hsmem
    rcases hmoves : s.moves with _ | ⟨m0, ms⟩
    · exact absurd hmoves hne
    · have hm0 : m = m0 := by
        rw [← hhead, hmoves]
        rfl
      subst hm0
      obtain ⟨hmem, _⟩ := hfirst m (by rw [hmoves]; rfl)
      have hfrom : m.from' = s.start := (getMovesForPiece_shape hget hmem).1
      rw [hfrom]
      exact ⟨piece, hget, hcol, hmem⟩
  · rw [if_neg hmax] at hm
    cases lock with
    | some q => exact absurd hm (List.not_mem_nil m)
    | none =>
      obtain ⟨pc, hpc, hmem⟩ := List.mem_flatMap.1 hm
      obtain ⟨hget, hcol⟩ := playerPieces_mem hpc
      have hfrom : m.from' = pc.1 := (getMovesForPiece_shape hget hmem).1
      rw [hfrom]
      exact ⟨pc.2, hget, hcol, hmem⟩

theorem getMaxCaptureChain_ne_nil {b : BoardState} {pos : Position} {piece : Piece}
    (hp : boardGet b pos.row pos.col = some piece)
    (hne : (getMovesForPiece b pos piece).filter
      (fun m => decide (0 < m.captures.length)) ≠ []) :
    getMaxCaptureChain b pos ≠ [] := by
  intro hnil
  unfold getMaxCaptureChain at hnil
  have h64 : (64 : Nat) = 63 + 1 := rfl
  rw [h64, getMaxCaptureChainGo] at hnil
  split at hnil
  · rename_i heq
    rw [hp] at heq
    exact Option.noConfusion heq
  · rename_i piece' hp'
    have hpp : piece' = piece := by
      rw [hp] at hp'
      injection hp' with hp'
      exact hp'.symm
    rw [hpp] at hnil
    rw [if_neg hne] at hnil
    rcases hfil : (getMovesForPiece b pos piece).filter
        (fun m => decide (0 < m.captures.length)) with _ | ⟨mv, rest⟩
    · exact hne hfil
    · rw [hfil, List.flatMap_cons] at hnil
      rcases List.append_eq_nil.1 hnil with ⟨hhead, _⟩
      dsimp only at hhead
      by_cases hterm : (!piece.isKing && reachedEndB piece.color mv) = true
      · rw [if_pos hterm] at hhead
        exact List.noConfusion hhead
      · rw [if_neg hterm] at hhead
        by_cases hsub : getMaxCaptureChainGo (simulateCapture b mv) mv.to' ([] ++ [mv]) 63 = []
        · rw [if_pos hsub] at hhead
          exact List.noConfusion hhead
        · rw [if_neg hsub] at hhead
          exact hsub hhead

theorem getValidMoves_capture_branch {b : BoardState} {p : PlayerColor}
    {lock : Option Position} (hmax : 0 < maxCaptureCount b p lock) :
    ∀ m ∈ getValidMovesForPlayer b p lock, m.captures ≠ [] := by
  intro m hm
  unfold getValidMovesForPlayer at hm
  rw [if_pos hmax] at hm
  have hm' := mem_distinctMoves hm
  obtain ⟨s, hs, hhead⟩ := List.mem_map.1 hm'
  have hsmem := (List.mem_filter.1 hs).1
  obtain ⟨_, hne, piece, hget, hcol, hfirst⟩ := captureSequences_facts hsmem
  rcases hmoves : s.moves with _ | ⟨m0, ms⟩
  · exact absurd hmoves hne
  · have hm0 : m = m0 := by
      rw [← hhead, hmoves]
      rfl
    subst hm0
    exact (hfirst m (by rw [hmoves]; rfl)).2

/-- C1: `getValidMovesForPlayer` never mixes capture and non-capture moves.
When any capture chain (length ≥ 1) exists among the eligible pieces, the
returned list is exactly the deduplicated-by-`(from,to)` first steps of the
chains achieving the global maximum capture count, all of which are capture
moves; when no chain exists, every returned move is a non-capture move. -/
theorem getValidMoves_capture_coherence (b : BoardState) (p : PlayerColor)
    (lock : Option Position) :
    ((∃ s ∈ captureSequences b p lock, 1 ≤ s.count) →
       getValidMovesForPlayer b p lock =
         distinctMoves (((captureSequences b p lock).filter
             (fun s => decide (s.count = maxCaptureCount b p lock))).map
           (fun s => s.moves.headI)) ∧
       ∀ m ∈ getValidMovesForPlayer b p lock, m.captures ≠ []) ∧
    ((¬ ∃ s ∈ captureSequences b p lock, 1 ≤ s.count) →
       ∀ m ∈ getValidMovesForPlayer b p lock, m.captures = []) := by
  constructor
  · rintro ⟨s, hs, hc⟩
    have hmax : 0 < maxCaptureCount b p lock := by
      have := foldl_max_le_mem hs 0
      unfold maxCaptureCount
      omega
    refine ⟨?_, getValidMoves_capture_branch hmax⟩
    unfold getValidMovesForPlayer
    rw [if_pos hmax]
  · intro hno
    have hseqs : captureSequences b p lock = [] := by
      rcases hemp : captureSequences b p lock with _ | ⟨s, rest⟩
      · rfl
      · exfalso
        apply hno
        have hsmem : s ∈ captureSequences b p lock := by
          rw [hemp]
          exact List.mem_cons_self _ _
        obtain ⟨hcnt, hne, _⟩ := captureSequences_facts hsmem
        exact ⟨s, hsmem, by rw [hcnt]; exact List.length_pos.2 hne⟩
    have hmax : ¬ 0 < maxCaptureCount b p lock := by
      unfold maxCaptureCount
      rw [hseqs]
      simp
    intro m hm
    unfold getValidMovesForPlayer at hm
    rw [if_neg hmax] at hm
    cases lock with
    | some q => exact absurd hm (List.not_mem_nil m)
    | none =>
      obtain ⟨pc, hpc, hmem⟩ := List.mem_flatMap.1 hm
      obtain ⟨hget, hcol⟩ := playerPieces_mem hpc
      by_contra hcap
      have hfil : m ∈ (getMovesForPiece b pc.1 pc.2).filter
          (fun m => decide (0 < m.captures.length)) :=
        List.mem_filter.2 ⟨hmem, decide_eq_true (List.length_pos.2 hcap)⟩
      have hchne := getMaxCaptureChain_ne_nil hget (List.ne_nil_of_mem hfil)
      apply hchne
      unfold captureSequences targetPieces at hseqs
      have hmap := List.flatMap_eq_nil_iff.1 hseqs pc hpc
      exact List.map_eq_nil_iff.1 hmap

/-- C7: with an active capture-lock whose square yields no capture chain for
the player (no piece there, an opponent piece there, or an own piece without
captures), `getValidMovesForPlayer` returns the empty list — it never falls
back to non-capture moves while a lock is set. -/
theorem getValidMoves_dead_lock (b : BoardState) (p : PlayerColor) (q : Position)
    (h : ∀ piece, boardGet b q.row q.col = some piece → piece.color = p →
        getMaxCaptureChain b q = []) :
    getValidMovesForPlayer b p (some q) = [] := by
  have hseqs : captureSequences b p (some q) = [] := by
    rcases hemp : captureSequences b p (some q) with _ | ⟨s, rest⟩
    · rfl
    · exfalso
      have hsmem : s ∈ captureSequences b p (some q) := by
        rw [hemp]
        exact List.mem_cons_self _ _
      obtain ⟨pos, piece, ch, hpc, hget, hcol, hch, hstart, hmoves, hcount⟩ :=
        captureSequences_mem hsmem
      have hpq : pos.row = q.row ∧ pos.col = q.col := by
        unfold targetPieces at hpc
        exact of_decide_eq_true (List.mem_filter.1 hpc).2
      have hposq : pos = q := by
        obtain ⟨h1, h2⟩ := hpq
        cases pos
        cases q
        simp only [Position.mk.injEq]
        exact ⟨h1, h2⟩
      rw [hposq] at hget hch
      rw [h piece hget hcol] at hch
      exact absurd hch (List.not_mem_nil ch)
  have hmax : ¬ 0 < maxCaptureCount b p (some q) := by
    unfold maxCaptureCount
    rw [hseqs]
    simp
  unfold getValidMovesForPlayer
  rw [if_neg hmax]

/-- C3: in the chain enumeration for a man, no move other than the last of a
chain lands on the promotion row — a promoting capture terminates its chain
even when further jumps would be geometrically available. -/
theorem getMaxCaptureChain_promotion_terminates (b : BoardState) (pos : Position)
    (piece : Piece) (hWF : WF b) (hpiece : boardGet b pos.row pos.col = some piece)
    (hman : piece.isKing = false) :
    ∀ ch ∈ getMaxCaptureChain b pos, ∀ m ∈ ch.moves.dropLast,
      reachedEndB piece.color m = false := by
  intro ch hch m hm
  obtain ⟨suffix, hsuf, hrest⟩ := go_promo 64 b pos [] piece hWF hpiece hman ch hch
  rw [List.nil_append] at hsuf
  rw [hsuf] at hm
  exact hrest m hm

theorem applyMove_board (b : BoardState) (m : Move) :
    (applyMove b m).board = applyMoveBoard b m := by
  unfold applyMove
  split
  · split <;> rfl
  · rfl

theorem applyMove_captured (b : BoardState) (m : Move) :
    (applyMove b m).captured = capturedFlag m := by
  unfold applyMove
  split
  · split <;> rfl
  · rfl

theorem applyMove_promoted (b : BoardState) (m : Move) :
    (applyMove b m).promoted = promotedFlag b m := by
  unfold applyMove
  split
  · split <;> rfl
  · rfl

/-- The branching structure of `applyMove`'s turn-continuation logic. -/
theorem applyMove_turnEnded_iff (b : BoardState) (m : Move) :
    ((applyMove b m).turnEnded = false ↔
      (capturedFlag m = true ∧ promotedFlag b m = false ∧
        0 < (getValidMovesForPlayer (applyMoveBoard b m)
          (movingPieceOf b m).color (some m.to')).length)) ∧
    ((applyMove b m).turnEnded = false → (applyMove b m).mustCaptureFrom = some m.to') ∧
    ((applyMove b m).turnEnded = true → (applyMove b m).mustCaptureFrom = none) := by
  unfold applyMove
  split
  · rename_i hcond
    rw [Bool.and_eq_true, Bool.not_eq_true'] at hcond
    split
    · rename_i hlen
      exact ⟨⟨fun _ => ⟨hcond.1, hcond.2, hlen⟩, fun _ => rfl⟩, fun _ => rfl,
        fun h => Bool.noConfusion h⟩
    · rename_i hlen
      refine ⟨⟨fun h => Bool.noConfusion h, ?_⟩, fun h => Bool.noConfusion h, fun _ => rfl⟩
      rintro ⟨_, _, hl⟩
      exact absurd hl hlen
  · rename_i hcond
    refine ⟨⟨fun h => Bool.noConfusion h, ?_⟩, fun h => Bool.noConfusion h, fun _ => rfl⟩
    rintro ⟨hcap, hpro, _⟩
    exact (hcond (by rw [hcap, hpro]; rfl)).elim

/-- C2 (amended): for a legal move, `turnEnded = false` iff the move
captured at least one piece, did not promote, and the follow-up query
`getValidMovesForPlayer(result.board, mover's color, move.to)` is non-empty;
in every other case `turnEnded = true` with `mustCaptureFrom = null`, and
when `turnEnded = false` the lock equals the move's destination. -/
theorem applyMove_turnEnded_spec (b : BoardState) (p : PlayerColor)
    (lock : Option Position) (m : Move)
    (hm : m ∈ getValidMovesForPlayer b p lock) :
    ((applyMove b m).turnEnded = false ↔
      ((applyMove b m).captured = true ∧ (applyMove b m).promoted = false ∧
        getValidMovesForPlayer (applyMove b m).board p (some m.to') ≠ [])) ∧
    ((applyMove b m).turnEnded = false → (applyMove b m).mustCaptureFrom = some m.to') ∧
    ((applyMove b m).turnEnded = true → (applyMove b m).mustCaptureFrom = none) := by
  obtain ⟨piece, hget, hcol, _⟩ := getValidMoves_shape hm
  have hmp : movingPieceOf b m = piece := by
    unfold movingPieceOf
    rw [hget]
    rfl
  have base := applyMove_turnEnded_iff b m
  refine ⟨?_, base.2.1, base.2.2⟩
  rw [base.1, applyMove_captured, applyMove_promoted, applyMove_board, hmp, hcol]
  simp [List.length_pos]

/-- A board with no pieces (fixture for concrete instances). -/
def emptyBoard : BoardState := List.replicate 8 (List.replicate 8 none)

/-- Put the given pieces on an empty board (fixture for concrete instances). -/
def placePieces (ps : List (Position × Piece)) : BoardState :=
  ps.foldl (fun b pp => boardSet b pp.1.row pp.1.col (some pp.2)) emptyBoard

def whiteMan : Piece := { color := PlayerColor.white, isKing := false }

def blackMan : Piece := { color := PlayerColor.black, isKing := false }

def whiteKing : Piece := { color := PlayerColor.white, isKing := true }

/-- White man at (5,2) and black man at (3,2): white has only non-capture
moves, but after playing 5,2 → 4,1 a capture from (4,1) over (3,2) becomes
available to the moved piece. -/
def bNoCap : BoardState := placePieces [(⟨5, 2⟩, whiteMan), (⟨3, 2⟩, blackMan)]

def mDiag : Move := { from' := ⟨5, 2⟩, to' := ⟨4, 1⟩, captures := [] }

/-- C2 counterexample: `mDiag` is legal on `bNoCap`, causes no promotion,
and the follow-up query at its destination is non-empty — yet
`turnEnded = true`, because the move captured nothing.  The claimed
biconditional (without the capture condition) is therefore false here. -/
theorem applyMove_turnEnded_claim_counterexample :
    mDiag ∈ getValidMovesForPlayer bNoCap PlayerColor.white none ∧
    (applyMove bNoCap mDiag).promoted = false ∧
    getValidMovesForPlayer (applyMove bNoCap mDiag).board PlayerColor.white
      (some mDiag.to') ≠ [] ∧
    (applyMove bNoCap mDiag).turnEnded = true := by
  exact ⟨by decide, by decide, by decide, by decide⟩

/-- C2 witness: the amended characterization applied to the legal move
`mDiag` on `bNoCap`. -/
theorem applyMove_turnEnded_spec_witness :
    ((applyMove bNoCap mDiag).turnEnded = false ↔
      ((applyMove bNoCap mDiag).captured = true ∧
        (applyMove bNoCap mDiag).promoted = false ∧
        getValidMovesForPlayer (applyMove bNoCap mDiag).board PlayerColor.white
          (some mDiag.to') ≠ [])) ∧
    ((applyMove bNoCap mDiag).turnEnded = false →
      (applyMove bNoCap mDiag).mustCaptureFrom = some mDiag.to') ∧
    ((applyMove bNoCap mDiag).turnEnded = true →
      (applyMove bNoCap mDiag).mustCaptureFrom = none) :=
  applyMove_turnEnded_spec bNoCap PlayerColor.white none mDiag (by decide)

theorem ne_or_of_not_and {x y u v : Int} (h : ¬(u = x ∧ v = y)) :
    x ≠ u ∨ y ≠ v := by
  by_cases hx : x = u
  · refine Or.inr ?_
    intro hv
    exact h ⟨hx.symm, hv.symm⟩
  · exact Or.inl hx

/-- C6: on a well-formed board, applying a legal move changes exactly the
origin square (cleared), the destination square (now holding the moving
piece, promoted to king when it was a man landing on the far row for its
color), and the captured squares (cleared); every other cell keeps its old
content.  The embedding is purely functional, so the input board itself is
untouched — mirroring the source's deep copy. -/
theorem applyMove_frame (b : BoardState) (p : PlayerColor) (lock : Option Position)
    (m : Move) (hWF : WF b) (hm : m ∈ getValidMovesForPlayer b p lock) :
    ∃ piece, boardGet b m.from'.row m.from'.col = some piece ∧ piece.color = p ∧
      ∀ r c : Int,
        boardGet (applyMove b m).board r c =
          if r = m.to'.row ∧ c = m.to'.col then
            some (if piece.isKing = false ∧
                ((piece.color = PlayerColor.white ∧ m.to'.row = 0) ∨
                 (piece.color = PlayerColor.black ∧ m.to'.row = BOARD_SIZE - 1)) then
              { piece with isKing := true } else piece)
          else if r = m.from'.row ∧ c = m.from'.col then none
          else if ∃ cap ∈ m.captures, cap.row = r ∧ cap.col = c then none
          else boardGet b r c := by
  obtain ⟨piece, hget, hcol, hmem⟩ := getValidMoves_shape hm
  have hmp : movingPieceOf b m = piece := by
    unfold movingPieceOf
    rw [hget]
    rfl
  obtain ⟨-, hval, hempty, hto, hpar, hcaps⟩ := move_facts hget hmem
  have hfromv : isValidPos m.from'.row m.from'.col = true :=
    isValidPos_of_boardGet_some hget
  have hPiff : promotedFlag b m = true ↔
      (piece.isKing = false ∧
        ((piece.color = PlayerColor.white ∧ m.to'.row = 0) ∨
         (piece.color = PlayerColor.black ∧ m.to'.row = BOARD_SIZE - 1))) := by
    simp only [promotedFlag, hmp, Bool.and_eq_true, Bool.or_eq_true,
      Bool.not_eq_true', decide_eq_true_eq]
  refine ⟨piece, hget, hcol, ?_⟩
  intro r c
  rw [applyMove_board]
  unfold applyMoveBoard
  rw [hmp]
  dsimp only
  have hWF1 : WF (boardSet b m.to'.row m.to'.col (some piece)) := WF_boardSet hWF _ _ _
  have hWF2 : WF (boardSet (boardSet b m.to'.row m.to'.col (some piece))
      m.from'.row m.from'.col none) := WF_boardSet hWF1 _ _ _
  have hB2from : boardGet (boardSet (boardSet b m.to'.row m.to'.col (some piece))
      m.from'.row m.from'.col none) m.from'.row m.from'.col = none :=
    boardGet_boardSet_self hWF1 hfromv _
  have hB2to : boardGet (boardSet (boardSet b m.to'.row m.to'.col (some piece))
      m.from'.row m.from'.col none) m.to'.row m.to'.col = some piece := by
    rw [boardGet_boardSet_ne (Or.inl (fun h => hto h.symm)),
      boardGet_boardSet_self hWF hval]
  rcases hcaps with hcapeq | ⟨cap, cp, hcapeq, hcp, hct, hcpget, hcpc⟩
  · -- non-capture move: captures = []
    rw [hcapeq]
    simp only [List.foldl_nil]
    by_cases hc1 : r = m.to'.row ∧ c = m.to'.col
    · obtain ⟨rfl, rfl⟩ := hc1
      rw [if_pos (⟨rfl, rfl⟩ : m.to'.row = m.to'.row ∧ m.to'.col = m.to'.col)]
      by_cases hpf : promotedFlag b m = true
      · rw [if_pos hpf, boardGet_boardSet_self hWF2 hval, hB2to,
          if_pos (hPiff.1 hpf)]
        rfl
      · rw [if_neg hpf, hB2to, if_neg (fun hP => hpf (hPiff.2 hP))]
    · rw [if_neg hc1]
      have hc1' := ne_or_of_not_and hc1
      by_cases hc2 : r = m.from'.row ∧ c = m.from'.col
      · obtain ⟨rfl, rfl⟩ := hc2
        rw [if_pos (⟨rfl, rfl⟩ : m.from'.row = m.from'.row ∧ m.from'.col = m.from'.col)]
        by_cases hpf : promotedFlag b m = true
        · rw [if_pos hpf, boardGet_boardSet_ne hc1', hB2from]
        · rw [if_neg hpf, hB2from]
      · rw [if_neg hc2]
        have hc2' := ne_or_of_not_and hc2
        rw [if_neg (show ¬∃ cap ∈ ([] : List Position), cap.row = r ∧ cap.col = c by
          rintro ⟨cp', hcp', -⟩
          exact absurd hcp' (List.not_mem_nil cp'))]
        have hrest : boardGet (boardSet (boardSet b m.to'.row m.to'.col (some piece))
            m.from'.row m.from'.col none) r c = boardGet b r c := by
          rw [boardGet_boardSet_ne hc2', boardGet_boardSet_ne hc1']
        by_cases hpf : promotedFlag b m = true
        · rw [if_pos hpf, boardGet_boardSet_ne hc1', hrest]
        · rw [if_neg hpf, hrest]
  · -- capture move: captures = [cap]
    rw [hcapeq]
    simp only [List.foldl_cons, List.foldl_nil]
    have hcapv : isValidPos cap.row cap.col = true := isValidPos_of_boardGet_some hcpget
    have hWF3 : WF (boardSet (boardSet (boardSet b m.to'.row m.to'.col (some piece))
        m.from'.row m.from'.col none) cap.row cap.col none) := WF_boardSet hWF2 _ _ _
    have hB3to : boardGet (boardSet (boardSet (boardSet b m.to'.row m.to'.col
        (some piece)) m.from'.row m.from'.col none) cap.row cap.col none)
        m.to'.row m.to'.col = some piece := by
      rw [boardGet_boardSet_ne (Or.inl hct), hB2to]
    by_cases hc1 : r = m.to'.row ∧ c = m.to'.col
    · obtain ⟨rfl, rfl⟩ := hc1
      rw [if_pos (⟨rfl, rfl⟩ : m.to'.row = m.to'.row ∧ m.to'.col = m.to'.col)]
      by_cases hpf : promotedFlag b m = true
      · rw [if_pos hpf, boardGet_boardSet_self hWF3 hval, hB3to,
          if_pos (hPiff.1 hpf)]
        rfl
      · rw [if_neg hpf, hB3to, if_neg (fun hP => hpf (hPiff.2 hP))]
    · rw [if_neg hc1]
      have hc1' := ne_or_of_not_and hc1
      by_cases hc2 : r = m.from'.row ∧ c = m.from'.col
      · obtain ⟨rfl, rfl⟩ := hc2
        rw [if_pos (⟨rfl, rfl⟩ : m.from'.row = m.from'.row ∧ m.from'.col = m.from'.col)]
        have hcapne : cap.row ≠ m.from'.row ∨ cap.col ≠ m.from'.col := Or.inl hcp
        by_cases hpf : promotedFlag b m = true
        · rw [if_pos hpf, boardGet_boardSet_ne hc1', boardGet_boardSet_ne hcapne,
            hB2from]
        · rw [if_neg hpf, boardGet_boardSet_ne hcapne, hB2from]
      · rw [if_neg hc2]
        have hc2' := ne_or_of_not_and hc2
        by_cases hc3 : ∃ cap' ∈ [cap], cap'.row = r ∧ cap'.col = c
        · obtain ⟨cap', hcap'mem, hcr, hcc⟩ := hc3
          rcases List.mem_singleton.1 hcap'mem with rfl
          subst hcr
          subst hcc
          rw [if_pos (⟨cap', List.mem_singleton_self cap', rfl, rfl⟩ :
            ∃ x ∈ [cap'], x.row = cap'.row ∧ x.col = cap'.col)]
          have hcapset : boardGet (boardSet (boardSet (boardSet b m.to'.row m.to'.col
              (some piece)) m.from'.row m.from'.col none) cap'.row cap'.col none)
              cap'.row cap'.col = none := boardGet_boardSet_self hWF2 hcapv _
          by_cases hpf : promotedFlag b m = true
          · rw [if_pos hpf, boardGet_boardSet_ne (Or.inl (fun h => hct h.symm)),
              hcapset]
          · rw [if_neg hpf, hcapset]
        · rw [if_neg hc3]
          have hcne : cap.row ≠ r ∨ cap.col ≠ c := by
            refine ne_or_of_not_and ?_
            intro hh
            exact hc3 ⟨cap, List.mem_singleton_self cap, hh.1.symm, hh.2.symm⟩
          have hrest : boardGet (boardSet (boardSet (boardSet b m.to'.row m.to'.col
              (some piece)) m.from'.row m.from'.col none) cap.row cap.col none) r c
              = boardGet b r c := by
            rw [boardGet_boardSet_ne hcne, boardGet_boardSet_ne hc2',
              boardGet_boardSet_ne hc1']
          by_cases hpf : promotedFlag b m = true
          · rw [if_pos hpf, boardGet_boardSet_ne hc1', hrest]
          · rw [if_neg hpf, hrest]

/-- The dark-square invariant of the data model: every occupied cell has
`(row + col)` odd.  Quantified over the 8×8 index range, which covers all
cells (`boardGet` answers `none` off the board). -/
def DarkSquares (b : BoardState) : Prop :=
  ∀ r : Nat, r < 8 → ∀ c : Nat, c < 8 →
    boardGet b r c ≠ none → ((r : Int) + (c : Int)) % 2 = 1

instance (b : BoardState) : Decidable (DarkSquares b) := by
  unfold DarkSquares
  infer_instance

/-- C9: on a well-formed board whose pieces all sit on dark squares, every
legal move leaves a board whose pieces all sit on dark squares (one piece
per cell is inherent in the grid-of-`Option` data model). -/
theorem applyMove_preserves_dark_squares (b : BoardState) (p : PlayerColor)
    (lock : Option Position) (m : Move) (hWF : WF b) (hdark : DarkSquares b)
    (hm : m ∈ getValidMovesForPlayer b p lock) :
    DarkSquares (applyMove b m).board := by
  obtain ⟨piece, hget, hcol, hmem⟩ := getValidMoves_shape hm
  obtain ⟨piece2, hget2, hcol2, hframe⟩ := applyMove_frame b p lock m hWF hm
  obtain ⟨-, hval, hempty, hto, hpar, -⟩ := move_facts hget hmem
  have hfromv := isValidPos_of_boardGet_some hget
  obtain ⟨h1, h2, h3, h4⟩ := isValidPos_iff.1 hfromv
  have hfr : ((m.from'.row.toNat : Int)) = m.from'.row := Int.toNat_of_nonneg h1
  have hfc : ((m.from'.col.toNat : Int)) = m.from'.col := Int.toNat_of_nonneg h3
  have hfp : (m.from'.row + m.from'.col) % 2 = 1 := by
    have hd := hdark m.from'.row.toNat (by omega) m.from'.col.toNat (by omega) ?_
    · rw [hfr, hfc] at hd
      exact hd
    · rw [hfr, hfc, hget]
      exact fun h => Option.noConfusion h
  have htp : (m.to'.row + m.to'.col) % 2 = 1 := by
    rw [hpar]
    exact hfp
  intro r hr c hc hne
  rw [hframe ((r : Int)) ((c : Int))] at hne
  by_cases ht : ((r : Int)) = m.to'.row ∧ ((c : Int)) = m.to'.col
  · rw [ht.1, ht.2]
    exact htp
  · rw [if_neg ht] at hne
    by_cases hf : ((r : Int)) = m.from'.row ∧ ((c : Int)) = m.from'.col
    · rw [if_pos hf] at hne
      exact absurd rfl hne
    · rw [if_neg hf] at hne
      by_cases hcp : ∃ cap ∈ m.captures, cap.row = ((r : Int)) ∧ cap.col = ((c : Int))
      · rw [if_pos hcp] at hne
        exact absurd rfl hne
      · rw [if_neg hcp] at hne
        exact hdark r hr c hc hne

theorem maxv_fin_fin (p q : ℚ) : ∃ r, XVal.maxv (.fin p) (.fin q) = XVal.fin r := by
  unfold XVal.maxv
  split
  · exact ⟨q, rfl⟩
  · exact ⟨p, rfl⟩

theorem minv_fin_fin (p q : ℚ) : ∃ r, XVal.minv (.fin p) (.fin q) = XVal.fin r := by
  unfold XVal.minv
  split
  · exact ⟨p, rfl⟩
  · exact ⟨q, rfl⟩

theorem foldl_keeps_fin {f : (XVal × XVal × Bool) → Move → (XVal × XVal × Bool)}
    (hP3 : ∀ st a, (∃ q, st.1 = XVal.fin q) → ∃ q, (f st a).1 = XVal.fin q) :
    ∀ (ms : List Move) (st : XVal × XVal × Bool),
      (∃ q, st.1 = XVal.fin q) → ∃ q, (ms.foldl f st).1 = XVal.fin q := by
  intro ms
  induction ms with
  | nil => exact fun st h => h
  | cons a rest ih =>
    intro st h
    rw [List.foldl_cons]
    exact ih _ (hP3 st a h)

theorem foldl_first_fin {f : (XVal × XVal × Bool) → Move → (XVal × XVal × Bool)}
    {x0 y0 : XVal}
    (hP3 : ∀ st a, (∃ q, st.1 = XVal.fin q) → ∃ q, (f st a).1 = XVal.fin q)
    (hP2 : ∀ a, ∃ q, (f (x0, y0, false) a).1 = XVal.fin q)
    (m0 : Move) (ms : List Move) :
    ∃ q, ((m0 :: ms).foldl f (x0, y0, false)).1 = XVal.fin q := by
  rw [List.foldl_cons]
  exact foldl_keeps_fin hP3 ms _ (hP2 m0)

/-- `minimax` always produces a finite score: leaves evaluate the static
heuristic, starved nodes give ±10000, and interior nodes fold finite child
scores. -/
theorem minimax_fin : ∀ (depth : Nat) (board : BoardState) (alpha beta : XVal)
    (isMax : Bool) (lock : Option Position) (cur root : PlayerColor),
    ∃ q, minimax board depth alpha beta isMax lock cur root = XVal.fin q := by
  intro depth
  induction depth with
  | zero => exact fun board alpha beta isMax lock cur root => ⟨_, rfl⟩
  | succ d ih =>
    intro board alpha beta isMax lock cur root
    rw [minimax]
    by_cases hw : winnerTruthy (checkWinner board) = true
    · rw [if_pos hw]
      exact ⟨_, rfl⟩
    · rw [if_neg hw]
      dsimp only
      by_cases hmv : getValidMovesForPlayer board cur lock = []
      · rw [if_pos hmv]
        exact ⟨_, rfl⟩
      · rw [if_neg hmv]
        obtain ⟨m0, rest, hms⟩ := List.exists_cons_of_ne_nil hmv
        rw [hms]
        by_cases him : isMax = true
        · rw [if_pos him]
          refine foldl_first_fin ?_ ?_ m0 rest
          · intro st a hfin
            dsimp only
            by_cases hdone : st.2.2 = true
            · rw [if_pos hdone]
              exact hfin
            · rw [if_neg hdone]
              obtain ⟨q, hq⟩ := hfin
              obtain ⟨qe, hqe⟩ := ih (applyMove board a).board st.2.1 beta
                (if (applyMove board a).turnEnded = true then !isMax else isMax)
                (applyMove board a).mustCaptureFrom
                (if (applyMove board a).turnEnded = true then otherColor cur else cur) root
              rw [hq, hqe]
              exact maxv_fin_fin q qe
          · intro a
            dsimp only
            obtain ⟨qe, hqe⟩ := ih (applyMove board a).board alpha beta
              (if (applyMove board a).turnEnded = true then !isMax else isMax)
              (applyMove board a).mustCaptureFrom
              (if (applyMove board a).turnEnded = true then otherColor cur else cur) root
            rw [hqe]
            exact ⟨qe, rfl⟩
        · rw [if_neg him]
          refine foldl_first_fin ?_ ?_ m0 rest
          · intro st a hfin
            dsimp only
            by_cases hdone : st.2.2 = true
            · rw [if_pos hdone]
              exact hfin
            · rw [if_neg hdone]
              obtain ⟨q, hq⟩ := hfin
              obtain ⟨qe, hqe⟩ := ih (applyMove board a).board alpha st.2.1
                (if (applyMove board a).turnEnded = true then !isMax else isMax)
                (applyMove board a).mustCaptureFrom
                (if (applyMove board a).turnEnded = true then otherColor cur else cur) root
              rw [hq, hqe]
              exact minv_fin_fin q qe
          · intro a
            dsimp only
            obtain ⟨qe, hqe⟩ := ih (applyMove board a).board alpha beta
              (if (applyMove board a).turnEnded = true then !isMax else isMax)
              (applyMove board a).mustCaptureFrom
              (if (applyMove board a).turnEnded = true then otherColor cur else cur) root
            rw [hqe]
            exact ⟨qe, rfl⟩

theorem foldl_keeps_some {g : (Option Move × XVal) → Move → (Option Move × XVal)}
    (hkeep : ∀ st a, (∃ x, st.1 = some x) → ∃ x, (g st a).1 = some x) :
    ∀ (ms : List Move) (st : Option Move × XVal),
      (∃ x, st.1 = some x) → ∃ x, (ms.foldl g st).1 = some x := by
  intro ms
  induction ms with
  | nil => exact fun st h => h
  | cons a rest ih =>
    intro st h
    rw [List.foldl_cons]
    exact ih _ (hkeep st a h)

/-- On two or more legal moves, `getBestMove` is the root fold over the
shuffled move list. -/
theorem getBestMove_cons₂ (shuffle : List Move → List Move) (b : BoardState)
    (p : PlayerColor) (lock : Option Position) (m0 m1 : Move) (rest : List Move)
    (hms : getValidMovesForPlayer b p lock = m0 :: m1 :: rest) :
    getBestMove shuffle b p lock =
      ((shuffle (m0 :: m1 :: rest)).foldl (fun st move =>
        let res := applyMove b move
        let nextPlayer := if res.turnEnded then otherColor p else p
        let isMaximizing := !res.turnEnded
        let moveValue := minimax res.board (DEPTH - 1) XVal.neginf XVal.posinf
          isMaximizing res.mustCaptureFrom nextPlayer p
        if XVal.ltb st.2 moveValue then (some move, moveValue) else st)
        ((none : Option Move), XVal.neginf)).1 := by
  unfold getBestMove
  rw [hms]

/-- C8: `getBestMove` returns no move exactly when there is no legal move;
with exactly one legal move it returns that move at once, for every
permutation the shuffle may produce, evaluating zero search nodes. -/
theorem getBestMove_spec (shuffle : List Move → List Move)
    (hshuffle : ∀ ms, (shuffle ms).Perm ms)
    (b : BoardState) (p : PlayerColor) (lock : Option Position) :
    (getBestMove shuffle b p lock = none ↔ getValidMovesForPlayer b p lock = []) ∧
    (∀ m, getValidMovesForPlayer b p lock = [m] →
      getBestMove shuffle b p lock = some m ∧
      getBestMoveSearchNodes shuffle b p lock = 0) := by
  constructor
  · constructor
    · intro hnone
      rcases hms : getValidMovesForPlayer b p lock with _ | ⟨m0, rest⟩
      · rfl
      · exfalso
        cases rest with
        | nil =>
          unfold getBestMove at hnone
          rw [hms] at hnone
          exact Option.noConfusion hnone
        | cons m1 rest' =>
          rw [getBestMove_cons₂ shuffle b p lock m0 m1 rest' hms] at hnone
          have hlen := (hshuffle (m0 :: m1 :: rest')).length_eq
          have hsne : shuffle (m0 :: m1 :: rest') ≠ [] := by
            intro h
            rw [h] at hlen
            simp at hlen
          obtain ⟨s0, srest, hshape⟩ := List.exists_cons_of_ne_nil hsne
          rw [hshape] at hnone
          obtain ⟨x, hx⟩ : ∃ x, ((s0 :: srest).foldl (fun st move =>
              let res := applyMove b move
              let nextPlayer := if res.turnEnded then otherColor p else p
              let isMaximizing := !res.turnEnded
              let moveValue := minimax res.board (DEPTH - 1) XVal.neginf XVal.posinf
                isMaximizing res.mustCaptureFrom nextPlayer p
              if XVal.ltb st.2 moveValue then (some move, moveValue) else st)
              ((none : Option Move), XVal.neginf)).1 = some x := by
            rw [List.foldl_cons]
            refine foldl_keeps_some ?_ srest _ ?_
            · intro st a hsome
              dsimp only
              by_cases hlt : XVal.ltb st.2 (minimax (applyMove b a).board (DEPTH - 1)
                  XVal.neginf XVal.posinf (!(applyMove b a).turnEnded)
                  (applyMove b a).mustCaptureFrom
                  (if (applyMove b a).turnEnded = true then otherColor p else p) p) = true
              · rw [if_pos hlt]
                exact ⟨a, rfl⟩
              · rw [if_neg hlt]
                exact hsome
            · dsimp only
              obtain ⟨q, hq⟩ := minimax_fin (DEPTH - 1) (applyMove b s0).board
                XVal.neginf XVal.posinf (!(applyMove b s0).turnEnded)
                (applyMove b s0).mustCaptureFrom
                (if (applyMove b s0).turnEnded = true then otherColor p else p) p
              rw [hq]
              rw [if_pos (show XVal.ltb XVal.neginf (XVal.fin q) = true from rfl)]
              exact ⟨s0, rfl⟩
          rw [hx] at hnone
          exact Option.noConfusion hnone
    · intro hms
      unfold getBestMove
      rw [hms]
  · intro m hms
    constructor
    · unfold getBestMove
      rw [hms]
    · unfold getBestMoveSearchNodes
      rw [hms]

/-- C5: on the initial board, white to move with no capture-lock gets
exactly the 7 single-step forward diagonal moves of the row-5 pieces — one
for the edge piece at (5,0), two for each of (5,2), (5,4) and (5,6) — and
no moves for any other piece. -/
theorem initialBoard_white_moves :
    getValidMovesForPlayer createInitialBoard PlayerColor.white none =
      [{ from' := ⟨5, 0⟩, to' := ⟨4, 1⟩, captures := [] },
       { from' := ⟨5, 2⟩, to' := ⟨4, 1⟩, captures := [] },
       { from' := ⟨5, 2⟩, to' := ⟨4, 3⟩, captures := [] },
       { from' := ⟨5, 4⟩, to' := ⟨4, 3⟩, captures := [] },
       { from' := ⟨5, 4⟩, to' := ⟨4, 5⟩, captures := [] },
       { from' := ⟨5, 6⟩, to' := ⟨4, 5⟩, captures := [] },
       { from' := ⟨5, 6⟩, to' := ⟨4, 7⟩, captures := [] }] ∧
    (getValidMovesForPlayer createInitialBoard PlayerColor.white none).length = 7 := by
  exact ⟨by decide, by decide⟩

/-- C10: `checkWinner` never returns the draw marker; it answers black
exactly when white has no pieces (so the empty board reports black), white
exactly when black has none while white still has some, and no winner when
both sides have pieces. -/
theorem checkWinner_characterization (b : BoardState) :
    checkWinner b ≠ WinnerResult.draw ∧
    (checkWinner b = WinnerResult.winner PlayerColor.black ↔
      colorCount b PlayerColor.white = 0) ∧
    (checkWinner b = WinnerResult.winner PlayerColor.white ↔
      (colorCount b PlayerColor.white ≠ 0 ∧ colorCount b PlayerColor.black = 0)) ∧
    (checkWinner b = WinnerResult.noWinner ↔
      (colorCount b PlayerColor.white ≠ 0 ∧ colorCount b PlayerColor.black ≠ 0)) := by
  unfold checkWinner
  by_cases h1 : colorCount b PlayerColor.white = 0
  · rw [if_pos h1]
    refine ⟨by decide, by simp [h1], ?_, ?_⟩
    · constructor
      · intro h
        exact absurd h (by decide)
      · rintro ⟨hw, _⟩
        exact absurd h1 hw
    · constructor
      · intro h
        exact absurd h (by decide)
      · rintro ⟨hw, _⟩
        exact absurd h1 hw
  · rw [if_neg h1]
    by_cases h2 : colorCount b PlayerColor.black = 0
    · rw [if_pos h2]
      refine ⟨by decide, ?_, by simp [h1, h2], ?_⟩
      · constructor
        · intro h
          exact absurd h (by decide)
        · intro hw
          exact absurd hw h1
      · constructor
        · intro h
          exact absurd h (by decide)
        · rintro ⟨_, hb⟩
          exact absurd h2 hb
    · rw [if_neg h2]
      refine ⟨by decide, ?_, ?_, by simp [h1, h2]⟩
      · constructor
        · intro h
          exact absurd h (by decide)
        · intro hw
          exact absurd hw h1
      · constructor
        · intro h
          exact absurd h (by decide)
        · rintro ⟨_, hb⟩
          exact absurd hb h2

/-- White man at (5,2), black man at (4,3): a one-capture chain exists. -/
def bCap : BoardState := placePieces [(⟨5, 2⟩, whiteMan), (⟨4, 3⟩, blackMan)]

def mCap : Move := { from' := ⟨5, 2⟩, to' := ⟨3, 4⟩, captures := [⟨4, 3⟩] }

/-- C1 witness: on `bCap` a capture chain exists and every offered move is a
capture. -/
theorem getValidMoves_capture_coherence_witness :
    (∃ s ∈ captureSequences bCap PlayerColor.white none, 1 ≤ s.count) ∧
    ∀ m ∈ getValidMovesForPlayer bCap PlayerColor.white none, m.captures ≠ [] :=
  ⟨by decide,
    ((getValidMoves_capture_coherence bCap PlayerColor.white none).1 (by decide)).2⟩

/-- White man at (2,1) about to capture (1,2) and land on the promotion row
at (0,3); the black man at (1,4) would offer a further geometric jump from
(0,3), which the promotion must cut off. -/
def bPromo : BoardState :=
  placePieces [(⟨2, 1⟩, whiteMan), (⟨1, 2⟩, blackMan), (⟨1, 4⟩, blackMan)]

/-- C3 witness: promotion-terminated chains on `bPromo`. -/
theorem getMaxCaptureChain_promotion_terminates_witness :
    WF bPromo ∧
    ∀ ch ∈ getMaxCaptureChain bPromo ⟨2, 1⟩, ∀ m ∈ ch.moves.dropLast,
      reachedEndB whiteMan.color m = false :=
  ⟨by decide,
    getMaxCaptureChain_promotion_terminates bPromo ⟨2, 1⟩ whiteMan (by decide)
      (by decide) (by decide)⟩

/-- White king at (4,4), black man at (2,2): spec scenario 3. -/
def bKing : BoardState := placePieces [(⟨4, 4⟩, whiteKing), (⟨2, 2⟩, blackMan)]

def mLand : Move := { from' := ⟨4, 4⟩, to' := ⟨1, 1⟩, captures := [⟨2, 2⟩] }

/-- C4 witness: the landing at (1,1) beyond the enemy at (2,2) is a
generated king capture, so the scan characterization produces its ray
decomposition. -/
theorem kingCaptureMovesInDir_mem_witness :
    ∃ k j : Nat, 1 ≤ j ∧ j < k ∧
      (∀ i : Nat, 1 ≤ i → i ≤ k →
          isValidPos ((4 : Int) + i * (-1)) ((4 : Int) + i * (-1)) = true) ∧
      (∃ p, boardGet bKing ((4 : Int) + j * (-1)) ((4 : Int) + j * (-1)) = some p ∧
          p.color ≠ whiteKing.color) ∧
      (∀ i : Nat, 1 ≤ i → i ≤ k → i ≠ j →
          boardGet bKing ((4 : Int) + i * (-1)) ((4 : Int) + i * (-1)) = none) ∧
      mLand = { from' := ⟨4, 4⟩, to' := ⟨(4 : Int) + k * (-1), (4 : Int) + k * (-1)⟩,
                captures := [⟨(4 : Int) + j * (-1), (4 : Int) + j * (-1)⟩] } :=
  (@kingCaptureMovesInDir_mem bKing ⟨4, 4⟩ whiteKing (by decide) (-1) (-1)
    (by decide) mLand).1 (by decide)

/-- C6 witness: the frame characterization applied to the capture move
`mCap` on `bCap`. -/
theorem applyMove_frame_witness :
    ∃ piece, boardGet bCap mCap.from'.row mCap.from'.col = some piece ∧
      piece.color = PlayerColor.white ∧
      ∀ r c : Int,
        boardGet (applyMove bCap mCap).board r c =
          if r = mCap.to'.row ∧ c = mCap.to'.col then
            some (if piece.isKing = false ∧
                ((piece.color = PlayerColor.white ∧ mCap.to'.row = 0) ∨
                 (piece.color = PlayerColor.black ∧ mCap.to'.row = BOARD_SIZE - 1)) then
              { piece with isKing := true } else piece)
          else if r = mCap.from'.row ∧ c = mCap.from'.col then none
          else if ∃ cap ∈ mCap.captures, cap.row = r ∧ cap.col = c then none
          else boardGet bCap r c :=
  applyMove_frame bCap PlayerColor.white none mCap (by decide) (by decide)

/-- C7 witness: a dead lock at the empty square (0,0) of `bCap` yields no
moves. -/
theorem getValidMoves_dead_lock_witness :
    getValidMovesForPlayer bCap PlayerColor.white (some ⟨0, 0⟩) = [] :=
  getValidMoves_dead_lock bCap PlayerColor.white ⟨0, 0⟩ (by
    intro piece h _
    have hn : boardGet bCap (⟨0, 0⟩ : Position).row (⟨0, 0⟩ : Position).col = none := by
      decide
    rw [hn] at h
    exact Option.noConfusion h)

/-- Lone white man at (5,0): exactly one legal move. -/
def bSingle : BoardState := placePieces [(⟨5, 0⟩, whiteMan)]

/-- C8 witness: the `getBestMove` characterization applied with the identity
shuffle on `bSingle`. -/
theorem getBestMove_spec_witness :
    (getBestMove id bSingle PlayerColor.white none = none ↔
      getValidMovesForPlayer bSingle PlayerColor.white none = []) ∧
    (∀ m, getValidMovesForPlayer bSingle PlayerColor.white none = [m] →
      getBestMove id bSingle PlayerColor.white none = some m ∧
      getBestMoveSearchNodes id bSingle PlayerColor.white none = 0) :=
  getBestMove_spec id (fun ms => List.Perm.refl ms) bSingle PlayerColor.white none

/-- C9 witness: dark squares preserved by the capture `mCap` on `bCap`. -/
theorem applyMove_preserves_dark_squares_witness :
    DarkSquares (applyMove bCap mCap).board :=
  applyMove_preserves_dark_squares bCap PlayerColor.white none mCap (by decide)
    (by decide) (by decide)
